import Mathlib

/-!
Verification of `bulk_imessage.py` (macos-bulk-messages).

Shallow embedding conventions:
* Python strings are modelled as `List Char` (abbreviated `Str`); the embedding is
  scoped to single-byte characters (code points < 256): Python's UTF-8 based
  percent-encoding of higher code points is outside the model, as are non-ASCII
  digit/whitespace classes of Python's `re` module.
* Python `None` is `Option.none`; SQL `NULL` values are `Option.none`.
* External effects (the `osascript` subprocess, the chat.db file, the clock) are
  modelled as explicit inputs: dispatch outcomes are supplied per row by an
  environment, the per-iteration database snapshot (`copy_db` plus the reads on
  it) is a function from iteration number to `Except LedgerErr ChatDb`, and time
  is idealized so that only the sleeps advance the clock (the initial sleep of
  `max 0 wait` and one unit per retry interval), reads taking zero time.
* A Python exception that no handler catches is `Except.error`; `main` has no
  handler around the row loop, so an error aborts the remaining rows.
-/

abbrev Str := List Char

/-- Python whitespace for `str.strip` / regex `\s` (ASCII scope). -/
def pyIsSpace (c : Char) : Bool :=
  c = ' ' || c = Char.ofNat 9 || c = Char.ofNat 10 || c = Char.ofNat 13 ||
    c = Char.ofNat 11 || c = Char.ofNat 12

/-- Python `str.strip()`: drop leading and trailing whitespace. -/
def pyStrip (s : Str) : Str :=
  ((s.dropWhile pyIsSpace).reverse.dropWhile pyIsSpace).reverse

/-- Guard of `normalize_phone`'s first branch: `re.fullmatch(r"\+\d{8,20}", ...)`. -/
def isPlusDigits (s : Str) : Bool :=
  match s with
  | [] => false
  | c :: ds =>
      c = '+' && ds.all Char.isDigit && decide (8 ≤ ds.length) && decide (ds.length ≤ 20)

/-- `normalize_phone` from bulk_imessage.py lines 49-62.  `s.replace(" ", "")` is
`filter (· ≠ ' ')`, `re.sub(r"\s+", "", s)` removes every whitespace character,
and `re.sub(r"\D", "", s)` keeps the digits. -/
def normalize_phone (raw : Option Str) : Option Str :=
  match raw with
  | none => none
  | some raw0 =>
      let s := pyStrip raw0
      if isPlusDigits (s.filter (fun c => c ≠ ' ')) then
        some (s.filter (fun c => !pyIsSpace c))
      else
        let digits := s.filter Char.isDigit
        if decide (digits.length = 11) && (digits.take 1 = ['1'] : Bool) then
          some ('+' :: digits)
        else if digits.length = 10 then
          some ('+' :: '1' :: digits)
        else if decide (8 ≤ digits.length) && decide (digits.length ≤ 15) &&
            !(digits.take 1 = ['0'] : Bool) then
          some ('+' :: digits)
        else
          none

/-- `digits_only` from line 64 (callers always pass a string, so the
`s or ""` default collapses to the string itself). -/
def digits_only (s : Str) : Str := s.filter Char.isDigit

example : normalize_phone (some "(555) 123-4567".data) = some "+15551234567".data := by decide
example : normalize_phone (some "15551234567".data) = some "+15551234567".data := by decide
example : normalize_phone (some "+44 7911 123456".data) = some "+447911123456".data := by decide
example : normalize_phone (some "12".data) = none := by decide
example : normalize_phone (some "abc".data) = none := by decide
example : normalize_phone (some "0123456789".data) = some "+10123456789".data := by decide
example : normalize_phone (some "+1234567890".data) = some "+1234567890".data := by decide

/-! ## Delivery ledger (chat.db) model -/

/-- A raised, uncaught Python exception from the ledger-access layer:
`shutil.copy2` failing, `sqlite3` refusing to read the copied file, or the
`handle` table being absent so that the `SELECT` itself raises. -/
inductive LedgerErr where
  | copyFail
  | dbError
deriving DecidableEq

/-- One row of the `message` table. `is_from_me` is an SQL integer column;
the two delivery columns hold SQL NULL as `none`. -/
structure MsgRow where
  rowid : Int
  handle_id : Int
  is_from_me : Int
  date : Int
  text : Str
  is_delivered : Option Int
  date_delivered : Option Int
deriving DecidableEq

/-- A read-consistent snapshot of chat.db: the `handle` table rows (ROWID, id),
the `message` table rows, and which optional delivery columns the schema has
(probed by `has_col` / `PRAGMA table_info`). -/
structure ChatDb where
  handles : List (Int × Str)
  messages : List MsgRow
  hasIsDelivered : Bool
  hasDateDelivered : Bool
deriving DecidableEq

/-- Insert into a list kept in descending `key` order (model of SQL
`ORDER BY ... DESC`; SQLite leaves tie order unspecified, this model fixes one). -/
def insertDescBy (key : α → Int) (x : α) : List α → List α
  | [] => [x]
  | y :: t => if key y ≤ key x then x :: y :: t else y :: insertDescBy key x t

/-- Sort a list into descending `key` order. -/
def sortDescBy (key : α → Int) : List α → List α
  | [] => []
  | x :: t => insertDescBy key x (sortDescBy key t)

/-- `find_handle_for_phone` (lines 114-121): scan the handle rows most-recent
first (`ORDER BY ROWID DESC`) and return the first whose digits-only id ends
with the digits-only phone; `(None, None)` becomes `none`. -/
def find_handle_for_phone (db : ChatDb) (phone_e164 : Str) : Option (Int × Str) :=
  let want := digits_only phone_e164
  (sortDescBy (fun h => h.1) db.handles).find? (fun h => want.isSuffixOf (digits_only h.2))

/-- The row shape fetched by `latest_outgoing_for_handle`'s SELECT:
`(ROWID, date, text, is_delivered-or-NULL, date_delivered-or-NULL)`. -/
structure FetchedRow where
  rowid : Int
  date : Int
  text : Str
  is_delivered : Option Int
  date_delivered : Option Int
deriving DecidableEq

/-- `latest_outgoing_for_handle` (lines 123-135): the most recent
(`ORDER BY date DESC LIMIT 1`) message with `is_from_me=1` for the handle;
a delivery column missing from the schema is selected as NULL. -/
def latest_outgoing_for_handle (db : ChatDb) (handle_rowid : Int) :
    Option FetchedRow × Bool × Bool :=
  let cands := db.messages.filter (fun m => m.is_from_me = 1 && m.handle_id = handle_rowid)
  let sorted := sortDescBy (fun m => m.date) cands
  (sorted.head?.map (fun m =>
      ⟨m.rowid, m.date, m.text,
        if db.hasIsDelivered then m.is_delivered else none,
        if db.hasDateDelivered then m.date_delivered else none⟩),
    db.hasIsDelivered, db.hasDateDelivered)

/-- `is_undelivered` (lines 137-148). -/
def is_undelivered (row : Option FetchedRow) (has_is_delivered has_date_delivered : Bool) :
    Bool :=
  match row with
  | none => true
  | some r =>
      let is_del : Option Int := if has_is_delivered then r.is_delivered else none
      let date_del : Option Int := if has_date_delivered then r.date_delivered else none
      let undel_by_is := has_is_delivered && (is_del = some 0 : Bool)
      let undel_by_date :=
        has_date_delivered && ((date_del = none : Bool) || (date_del = some 0 : Bool))
      if !has_is_delivered && !has_date_delivered then true
      else undel_by_is || undel_by_date

/-- The body of one poll iteration of `verify_delivery` (lines 160-167) on a
successfully copied snapshot: the computed `undel` flag.  Mirrors Python's
`if hid:` truthiness (a 0 ROWID is falsy). -/
def snapshot_check (db : ChatDb) (phone : Str) : Bool :=
  match find_handle_for_phone db phone with
  | some (hid, _) =>
      if hid = 0 then true
      else
        let (row, h1, h2) := latest_outgoing_for_handle db hid
        is_undelivered row h1 h2
  | none => true

/-- The poll loop of `verify_delivery` (lines 155-175), instrumented with the
number of snapshot reads.  Iteration `k` happens at elapsed time
`max 0 wait + k` (the initial `time.sleep(max(0.0, wait))` plus `k` sleeps of
`1.0`; the copy and the queries are idealized as instantaneous).  Each
iteration copies the store afresh; a raised exception propagates.  Returns
`(delivered?, number of reader invocations)`. -/
def verifyLoop (copyFn : ℕ → Except LedgerErr ChatDb) (phone : Str)
    (wait timeout : ℚ) (k : ℕ) : Except LedgerErr (Bool × ℕ) :=
  match copyFn k with
  | .error e => .error e
  | .ok db =>
      let undel := snapshot_check db phone
      if !undel then .ok (true, k + 1)
      else if timeout ≤ max 0 wait + k then .ok (false, k + 1)
      else verifyLoop copyFn phone wait timeout (k + 1)
termination_by (⌈timeout - max 0 wait⌉).toNat - k
decreasing_by
  rename_i hto
  have h1 : (k : ℚ) < timeout - max 0 wait := by push_neg at hto; linarith
  have h2 : (k : ℤ) < ⌈timeout - max 0 wait⌉ := Int.lt_ceil.mpr (by exact_mod_cast h1)
  omega

/-- `verify_delivery` (lines 150-175): result of the poll loop started at
iteration 0 (the invocation count is instrumentation, dropped here). -/
def verify_delivery (copyFn : ℕ → Except LedgerErr ChatDb) (phone : Str)
    (wait timeout : ℚ) : Except LedgerErr Bool :=
  (verifyLoop copyFn phone wait timeout 0).map Prod.fst

/-! ## Link personalization: find_first_url, urllib helpers, add_query_param -/

/-- Match of `r"https?://\S+"` anchored at the start of `s` (the `s?` branch is
tried greedily; `\S+` is the maximal nonempty run of non-whitespace). -/
def matchUrlAt (s : Str) : Option Str :=
  if ("https://".data).isPrefixOf s then
    let run := (s.drop 8).takeWhile (fun c => !pyIsSpace c)
    if run = [] then none else some ("https://".data ++ run)
  else if ("http://".data).isPrefixOf s then
    let run := (s.drop 7).takeWhile (fun c => !pyIsSpace c)
    if run = [] then none else some ("http://".data ++ run)
  else none

/-- Leftmost-match scan for `find_first_url`, tracking the absolute position. -/
def ffuAux : Str → ℕ → Option (Str × ℕ × ℕ)
  | [], _ => none
  | c :: t, i =>
      match matchUrlAt (c :: t) with
      | some u => some (u, i, i + u.length)
      | none => ffuAux t (i + 1)

/-- `find_first_url` (lines 66-70): the first `https?://\S+` match and its span. -/
def find_first_url (text : Str) : Option (Str × ℕ × ℕ) := ffuAux text 0

/-- Characters safe under `urllib.parse.quote` (Python's `_ALWAYS_SAFE`):
ASCII alphanumerics and `_.-~`. -/
def alwaysSafe (c : Char) : Bool :=
  c.isAlphanum || c = '_' || c = '.' || c = '-' || c = '~'

/-- Uppercase hex digit of `n % 16`. -/
def hexUpper (n : ℕ) : Char :=
  Char.ofNat (if n % 16 < 10 then 48 + n % 16 else 55 + n % 16)

/-- `urllib.parse.quote_plus` on one character with `safe=''` (as used by
`urlencode`): safe characters pass through, space becomes `+`, anything else is
percent-encoded (single-byte scope: code points < 256). -/
def pyQuoteChar (c : Char) : Str :=
  if alwaysSafe c then [c]
  else if c = ' ' then ['+']
  else ['%', hexUpper (c.toNat / 16), hexUpper c.toNat]

/-- `urllib.parse.quote_plus` with `safe=''`. -/
def pyQuotePlus (s : Str) : Str := s.foldr (fun c acc => pyQuoteChar c ++ acc) []

/-- Hexadecimal digit test of `urllib.parse.unquote`. -/
def isHexDigit (c : Char) : Bool :=
  c.isDigit || ('A' ≤ c && c ≤ 'F') || ('a' ≤ c && c ≤ 'f')

/-- Value of a hexadecimal digit. -/
def hexVal (c : Char) : ℕ :=
  if c.isDigit then c.toNat - 48
  else if 'A' ≤ c && c ≤ 'F' then c.toNat - 55
  else c.toNat - 87

/-- `urllib.parse.unquote`: decode `%XX` escapes (single-byte scope); an
invalid escape leaves the `%` literal. -/
def pyUnquote : Str → Str
  | [] => []
  | '%' :: a :: b :: rest =>
      if isHexDigit a && isHexDigit b then
        Char.ofNat (16 * hexVal a + hexVal b) :: pyUnquote rest
      else '%' :: pyUnquote (a :: b :: rest)
  | c :: rest => c :: pyUnquote rest

/-- `unquote(s.replace('+', ' '))` as done by `parse_qsl` on names and values. -/
def pyUnquotePlus (s : Str) : Str :=
  pyUnquote (s.map (fun c => if c = '+' then ' ' else c))

/-- Python `str.split(sep)` for a one-character separator: every occurrence
splits, empty pieces are kept, `""` gives `[""]`. -/
def pySplitAll (sep : Char) : Str → List Str
  | [] => [[]]
  | c :: t =>
      if c = sep then [] :: pySplitAll sep t
      else
        match pySplitAll sep t with
        | h :: r => (c :: h) :: r
        | [] => [[c]]

/-- Split at the first occurrence of `sep` (Python `str.split(sep, 1)`):
`(before, some after)` or `(s, none)` if absent. -/
def splitFirst (sep : Char) : Str → Str × Option Str
  | [] => ([], none)
  | c :: t =>
      if c = sep then ([], some t)
      else
        let p := splitFirst sep t
        (c :: p.1, p.2)

/-- `urllib.parse.parse_qsl(qs, keep_blank_values=True)`: split on `&`, drop
empty fields, split each field at its first `=` (a field without `=` gets a
blank value), and `unquote_plus` both sides. -/
def parse_qsl (qs : Str) : List (Str × Str) :=
  ((pySplitAll '&' qs).filter (fun f => f ≠ [])).map (fun field =>
    match splitFirst '=' field with
    | (name, some value) => (pyUnquotePlus name, pyUnquotePlus value)
    | (name, none) => (pyUnquotePlus name, []))

/-- Python `dict` assignment `d[k] = v`: overwrite in place if the key is
present (keeping its position), else append. -/
def pyDictInsert : List (Str × Str) → Str → Str → List (Str × Str)
  | [], k, v => [(k, v)]
  | (k0, v0) :: t, k, v =>
      if k0 = k then (k0, v) :: t else (k0, v0) :: pyDictInsert t k v

/-- `dict(pairs)`: left-to-right insertion, later duplicates overwrite the
value at the first occurrence's position. -/
def pyDict (l : List (Str × Str)) : List (Str × Str) :=
  l.foldl (fun d kv => pyDictInsert d kv.1 kv.2) []

/-- `&`-join of encoded `k=v` fields. -/
def joinAmp : List Str → Str
  | [] => []
  | [x] => x
  | x :: r => x ++ '&' :: joinAmp r

/-- The encoded `k=v` field of one pair, as `urlencode` emits it. -/
def encField (kv : Str × Str) : Str := pyQuotePlus kv.1 ++ '=' :: pyQuotePlus kv.2

/-- `urllib.parse.urlencode` on an order-preserving dict (each key and value a
string): `quote_plus` both sides of every pair and join with `&`. -/
def urlencode (q : List (Str × Str)) : Str :=
  joinAmp (q.map encField)

/-- The six components of `urllib.parse.urlparse`. -/
structure UrlParts where
  scheme : Str
  netloc : Str
  path : Str
  params : Str
  query : Str
  fragment : Str
deriving DecidableEq

/-- Delimiters ending the netloc in `urlsplit`. -/
def netlocDelim (c : Char) : Bool := c = '/' || c = '?' || c = '#'

/-- `_splitparams`: split params off the last path segment — the first `;` at
or after the last `/` (or anywhere when there is no `/`).  Splitting the
reversed string at its first `/` isolates the segment after the last `/`. -/
def splitParams (u : Str) : Str × Str :=
  match splitFirst '/' u.reverse with
  | (revAfter, some revBefore) =>
      match splitFirst ';' revAfter.reverse with
      | (_, none) => (u, [])
      | (bs, some ps) => (revBefore.reverse ++ '/' :: bs, ps)
  | (_, none) =>
      match splitFirst ';' u with
      | (_, none) => (u, [])
      | (bs, some ps) => (bs, ps)

/-- The component computation of `urllib.parse.urlparse`, specialized to the
URLs this program handles (scheme detection is spelled out for `http`/`https`,
the schemes `find_first_url` can produce; any other string keeps an empty
scheme, which only ever affects the path component, never the query/fragment
splits): netloc after `//` up to `/?#`, then fragment after the first `#`,
query after the first `?`, params off the last path segment.  `urlsplit` can
also *raise* `ValueError` while validating brackets in this netloc; that error
path is `urlparseE` below, which gates this total component computation by the
faithful bracket validation. -/
def urlparse (url : Str) : UrlParts :=
  let sr :=
    if ("https://".data).isPrefixOf url then ("https".data, url.drop 6)
    else if ("http://".data).isPrefixOf url then ("http".data, url.drop 5)
    else ([], url)
  let scheme := sr.1
  let rest := sr.2
  let nr :=
    if rest.take 2 = "//".data then
      ((rest.drop 2).takeWhile (fun c => !netlocDelim c),
        (rest.drop 2).dropWhile (fun c => !netlocDelim c))
    else ([], rest)
  let netloc := nr.1
  let fr := splitFirst '#' nr.2
  let fragment := fr.2.getD []
  let qr := splitFirst '?' fr.1
  let query := qr.2.getD []
  let pp := splitParams qr.1
  ⟨scheme, netloc, pp.1, pp.2, query, fragment⟩

/-- Schemes in `urllib.parse.uses_netloc` that this embedding can encounter
(`urlparse` above only ever produces `http`, `https` or an empty scheme; the
empty scheme is in Python's list but is short-circuited by the truthiness
test in `urlunsplit`, so it is irrelevant). -/
def usesNetloc (s : Str) : Bool := s = "http".data || s = "https".data

/-- `urllib.parse.urlunparse` (via `urlunsplit`, CPython 3.11 semantics): the
`//` authority marker is emitted when there is a netloc, or when the scheme
customarily uses one and the path does not already begin with `//`. -/
def urlunparse (p : UrlParts) : Str :=
  let url := if p.params ≠ [] then p.path ++ ';' :: p.params else p.path
  let url :=
    if p.netloc ≠ [] || (p.scheme ≠ [] && usesNetloc p.scheme && !(url.take 2 = "//".data : Bool)) then
      '/' :: '/' :: p.netloc ++ (if url ≠ [] && !(url.take 1 = ['/'] : Bool) then '/' :: url else url)
    else url
  let url := if p.scheme ≠ [] then p.scheme ++ ':' :: url else url
  let url := if p.query ≠ [] then url ++ '?' :: p.query else url
  if p.fragment ≠ [] then url ++ '#' :: p.fragment else url

/-- The no-raise path of `add_query_param` (lines 72-77); `add_query_paramE`
below adds the `ValueError` that `urlparse` can raise. -/
def add_query_param (url : Str) (key value : Str) : Str :=
  let parts := urlparse url
  let q := pyDict (parse_qsl parts.query)
  let q2 := pyDictInsert q key value
  let new_query := urlencode q2
  urlunparse { parts with query := new_query }

/-- The no-raise path of `personalize_link_in_message` (lines 79-86);
`personalize_link_in_messageE` below adds the `ValueError` propagating from
`add_query_param`. -/
def personalize_link_in_message (msg : Str) (phone_e164 : Str) (field_name : Str) : Str :=
  match find_first_url msg with
  | none => msg
  | some (url, start, stop) =>
      msg.take start ++ add_query_param url field_name (phone_e164.filter Char.isDigit)
        ++ msg.drop stop

example :
    personalize_link_in_message "see http://x.com/a?b=1&cid=7 now".data "+15551234567".data
      "cid".data = "see http://x.com/a?b=1&cid=15551234567 now".data := by decide
example :
    personalize_link_in_message "no link here".data "+15551234567".data "cid".data
      = "no link here".data := by decide
example :
    personalize_link_in_message "go https://a.io/p".data "+441".data "cid".data
      = "go https://a.io/p?cid=441".data := by decide

example :
    add_query_param "http://x.com/a;p1?b=hello world&b=2#frag".data "cid".data "99".data
      = "http://x.com/a;p1?b=2&cid=99#frag".data := by decide
example :
    add_query_param "http:///p".data "cid".data "99".data = "http:///p?cid=99".data := by decide
example :
    add_query_param "http://?q=1".data "cid".data "99".data = "http://?q=1&cid=99".data := by
  decide
example :
    add_query_param "http://#f".data "cid".data "99".data = "http://?cid=99#f".data := by decide
example :
    add_query_param "http:////x".data "cid".data "99".data = "http://x?cid=99".data := by decide
example :
    add_query_param "http://x.com/a?b=%41&c".data "cid".data "99".data
      = "http://x.com/a?b=A&c=&cid=99".data := by decide
example :
    add_query_param "http://x.com/a/b;c/d;e?x=1".data "cid".data "99".data
      = "http://x.com/a/b;c/d;e?x=1&cid=99".data := by decide
example :
    add_query_param "http://u:pw@x.com:8080/a?z=%2B+1".data "cid".data "99".data
      = "http://u:pw@x.com:8080/a?z=%2B+1&cid=99".data := by decide
example :
    personalize_link_in_message
        (personalize_link_in_message "see http://////x end".data "+99".data "cid".data)
        "+99".data "cid".data
      ≠ personalize_link_in_message "see http://////x end".data "+99".data "cid".data := by
  decide

/-! ## `urlsplit`'s netloc bracket validation (its `ValueError` path)

CPython 3.11's `urlsplit` raises `ValueError` when the netloc carries an
unbalanced `[`/`]`, or balanced brackets whose content fails
`_check_bracketed_host` (which accepts IPvFuture literals and IPv6 addresses,
and rejects everything else, raising also for a bracketed IPv4 address).  The
definitions below embed that validation; `urlparseE`, `add_query_paramE` and
`personalize_link_in_messageE` are the fallible functions as the program runs
them, with `Except.error` standing for the uncaught `ValueError` (no caller up
to `main` handles it, so it aborts the run). -/

/-- `ipaddress._BaseV4._parse_octet` (CPython 3.11): nonempty, ASCII decimal
digits only (`isascii() and isdigit()`), at most 3 characters, no leading zero
unless the octet is exactly `0`, and value at most 255. -/
def pyParseOctet (s : Str) : Bool :=
  decide (s ≠ []) && s.all Char.isDigit && decide (s.length ≤ 3)
    && (decide (s = ['0']) || decide (s.take 1 ≠ ['0']))
    && decide (s.foldl (fun n c => 10 * n + (c.toNat - 48)) 0 ≤ 255)

/-- `ipaddress.IPv4Address` on a string (CPython 3.11): rejects `/`, then the
dotted form must have exactly four octets, each accepted by `pyParseOctet`
(the empty string fails the four-octet count). -/
def isPyIPv4 (s : Str) : Bool :=
  decide ('/' ∉ s) && decide (s ≠ []) &&
    (let octets := pySplitAll '.' s
     decide (octets.length = 4) && octets.all pyParseOctet)

/-- `ipaddress._BaseV6._parse_hextet`: hex digits only, 1-4 characters (the
empty string fails `int('', 16)`). -/
def pyParseHextet (s : Str) : Bool :=
  s.all isHexDigit && decide (s.length ≤ 4) && decide (s ≠ [])

/-- The `::` bookkeeping of `_BaseV6._ip_int_from_string` after the optional
IPv4 tail has been replaced by two groups (every call site passes at least
three parts): at most 9 parts; at most one empty interior part (the `::`); an
empty endpoint only directly beside that `::`; at least one zero group
actually skipped; and every part the parse loops visit a valid hextet.  In
the no-`::` branch the endpoint-nonempty checks are subsumed by
`pyParseHextet` rejecting the empty string. -/
def pyIPv6Groups (ps : List Str) : Bool :=
  if decide (9 < ps.length) then false
  else
    match ((ps.drop 1).dropLast).findIdx? (fun p => decide (p = [])) with
    | some j =>
        if decide (2 ≤ (((ps.drop 1).dropLast).filter (fun p => decide (p = []))).length)
          then false
        else
          let i := j + 1
          if decide (ps.headD ['0'] = []) && decide (i ≠ 1) then false
          else if decide (ps.getLastD ['0'] = []) && decide (i ≠ ps.length - 2) then false
          else
            let hi := if ps.headD ['0'] = [] then 0 else i
            let lo := (ps.length - i - 1) - (if ps.getLastD ['0'] = [] then 1 else 0)
            if decide (8 ≤ hi + lo) then false
            else (ps.take hi).all pyParseHextet && (ps.drop (ps.length - lo)).all pyParseHextet
    | none => decide (ps.length = 8) && ps.all pyParseHextet

/-- `_BaseV6._ip_int_from_string` as a validity test: nonempty, at least three
`:`-separated parts, an optional dotted IPv4 tail (which must itself parse and
is replaced by two always-valid groups), then the `::` group rules. -/
def isPyIPv6Core (addr : Str) : Bool :=
  decide (addr ≠ []) &&
    (let parts := pySplitAll ':' addr
     if decide (parts.length < 3) then false
     else
       let lastP := parts.getLastD []
       if decide ('.' ∈ lastP) then
         isPyIPv4 lastP && pyIPv6Groups (parts.dropLast ++ [['0'], ['0']])
       else pyIPv6Groups parts)

/-- `ipaddress.IPv6Address` on a string (CPython 3.11): rejects `/`, splits an
optional `%scope` at the first `%` (the scope must be nonempty and `%`-free),
and validates the address part. -/
def isPyIPv6 (s : Str) : Bool :=
  decide ('/' ∉ s) &&
    (match (splitFirst '%' s).2 with
     | some scope =>
         decide (scope ≠ []) && decide ('%' ∉ scope) && isPyIPv6Core (splitFirst '%' s).1
     | none => isPyIPv6Core s)

/-- `urllib.parse._check_bracketed_host` (CPython 3.11): a bracketed host
starting with `v` must match `\Av[a-fA-F0-9]+\..+\Z` (one or more hex
digits, a dot, then at least one character, none of them a newline — the hex
run is deterministic since `.` is not a hex digit); any other host goes
through `ip_address`, which raises for an IPv4 address and for anything that
is not an IPv6 address. -/
def pyCheckBracketedHost (hostname : Str) : Bool :=
  match hostname with
  | 'v' :: rest =>
      (match rest.dropWhile isHexDigit with
       | '.' :: tail =>
           decide (rest.takeWhile isHexDigit ≠ []) && decide (tail ≠ [])
             && tail.all (fun c => decide (c ≠ Char.ofNat 10))
       | _ => false)
  | _ => isPyIPv6 hostname

/-- The netloc validation in `urlsplit` (CPython 3.11): a `[` without `]` or a
`]` without `[` raises `Invalid IPv6 URL`; balanced brackets validate
`netloc.partition('[')[2].partition(']')[0]` via `_check_bracketed_host`.
The trailing `_checknetloc` is a no-op in this embedding's single-byte scope:
it returns immediately for ASCII netlocs, and NFKC normalization of the
remaining Latin-1 characters never introduces `/?#@:`. -/
def netlocBracketOk (netloc : Str) : Bool :=
  if decide ('[' ∈ netloc) then
    if decide (']' ∈ netloc) then
      pyCheckBracketedHost (splitFirst ']' ((splitFirst '[' netloc).2.getD [])).1
    else false
  else decide (']' ∉ netloc)

/-- `urllib.parse.urlparse` with its error path: `urlsplit` raises `ValueError`
exactly when the bracket validation of the netloc it has just split off fails
(the `\t\r\n` removal and leading-space strip it performs first are no-ops on
the whitespace-free URLs `find_first_url` yields); otherwise the components are
those of `urlparse` above. -/
def urlparseE (url : Str) : Except Unit UrlParts :=
  if netlocBracketOk (urlparse url).netloc then .ok (urlparse url) else .error ()

/-- `add_query_param` (lines 72-77) as executed: the `ValueError` from
`urlparse` propagates; no later step (`parse_qsl`, dict update, `urlencode`,
`urlunparse`) raises. -/
def add_query_paramE (url key value : Str) : Except Unit Str :=
  (urlparseE url).map (fun parts =>
    urlunparse { parts with
      query := urlencode (pyDictInsert (pyDict (parse_qsl parts.query)) key value) })

/-- `personalize_link_in_message` (lines 79-86) as executed: the uncaught
`ValueError` from `add_query_param` propagates (and aborts the run, since
`main` has no handler). -/
def personalize_link_in_messageE (msg phone_e164 field_name : Str) : Except Unit Str :=
  match find_first_url msg with
  | none => .ok msg
  | some (url, start, stop) =>
      (add_query_paramE url field_name (phone_e164.filter Char.isDigit)).map
        (fun newUrl => msg.take start ++ newUrl ++ msg.drop stop)

example : personalize_link_in_messageE "see http://[x end".data "+99".data "cid".data
    = .error () := rfl
example : personalize_link_in_messageE "see http://[::1]:80/a end".data "+99".data "cid".data
    = .ok "see http://[::1]:80/a?cid=99 end".data := rfl
example : urlparseE "http://[abc]/p".data = .error () := rfl
example : urlparseE "http://]a[/p".data = .error () := rfl
example : urlparseE "http://[v1a.bc]/p".data
    = .ok (urlparse "http://[v1a.bc]/p".data) := rfl
example : urlparseE "http://[1.2.3.4]/p".data = .error () := rfl
example : urlparseE "http://[::ffff:1.2.3.4]/p".data
    = .ok (urlparse "http://[::ffff:1.2.3.4]/p".data) := rfl
example : urlparseE "http://[fe80::1%25eth0]/p".data
    = .ok (urlparse "http://[fe80::1%25eth0]/p".data) := rfl
example : urlparseE "http://[1::2::3]/p".data = .error () := rfl
example : urlparseE "http://[::1%]/p".data = .error () := rfl
example : urlparseE "http://x.com/a?b=1".data
    = .ok (urlparse "http://x.com/a?b=1".data) := rfl

/-! ## Run orchestrator (`main`, lines 179-319) -/

/-- Status vocabulary of the run log. -/
inductive Status where
  | failed
  | sent
  | sms_sent
  | sms_failed
deriving DecidableEq

/-- One appended log row (`log_row`, lines 223-229); the timestamp and run id
columns are ambient run constants and carry no per-row information, so they
are not modelled. -/
structure RunRecord where
  phone : Str
  first_name : Str
  status : Status
  info : Str
  message : Str
deriving DecidableEq

/-- The aggregate counters of `main` (line 254). -/
structure Counters where
  processed : ℕ
  sent : ℕ
  failed : ℕ
  sms_sent : ℕ
  sms_failed : ℕ
deriving DecidableEq

/-- Mutable run state threaded through the row loop: the counters, the
append-only log, and (instrumentation) the number of `run_osascript`
invocations, i.e. dispatch attempts on either channel. -/
structure RunState where
  counters : Counters
  records : List RunRecord
  dispatches : ℕ
deriving DecidableEq

/-- The configuration surface of one run (only the options the row loop
reads; paths and the inter-row delay have no observable effect here). -/
structure Args where
  message : Str
  dry_run : Bool
  limit : ℕ
  track_link : Bool
  link_field_name : Str
  verify_imessage : Bool
deriving DecidableEq

/-- One input CSV row: the `phone` cell and the `first_name` cell (both
default to the empty string when missing). -/
structure Row where
  phone : Str
  first_name : Str
deriving DecidableEq

/-- The external world, per row index: the outcome `osascript` would report
for the primary (iMessage) dispatch, the outcome for the (at most one)
fallback SMS dispatch, and the result of `verify_delivery` (an `Except`
because a ledger-access exception propagates). -/
structure Env where
  primary : ℕ → Bool × Str
  fallback : ℕ → Bool × Str
  verify : ℕ → Str → Except LedgerErr Bool

/-- `run_osascript` (lines 88-99): in dry-run mode no external action happens
and the outcome is `(True, "dry-run")`; otherwise the outcome is whatever the
external invocation produces. -/
def run_osascript (outcome : Bool × Str) (dry_run : Bool) : Bool × Str :=
  if dry_run then (true, "dry-run".data) else outcome

/-- The `"{first_name}"` placeholder of the message template. -/
def fmtMarker : Str := Char.ofNat 123 :: ("first_name".data ++ [Char.ofNat 125])

/-- Fuel-driven replacement of non-overlapping `fmtMarker` occurrences, left
to right (fuel is the remaining length, so it never runs out). -/
def replaceMarkerF (first : Str) : ℕ → Str → Str
  | 0, s => s
  | _ + 1, [] => []
  | fuel + 1, c :: t =>
      if fmtMarker.isPrefixOf (c :: t) then
        first ++ replaceMarkerF first fuel ((c :: t).drop fmtMarker.length)
      else c :: replaceMarkerF first fuel t

/-- `args.message.format(first_name=...)` (line 271), modelled for templates
whose only replacement field is `{first_name}`. -/
def pyFormat (template first : Str) : Str := replaceMarkerF first template.length template

/-- The `info` column of the normalization-failure record (line 265); the
`repr` quotes that Python's `!r` adds around the raw value are elided. -/
def unusable_info (raw : Str) : Str := "Unusable phone: ".data ++ raw

/-- Process one CSV row (loop body, lines 256-315, minus the limit check and
the inter-row sleep): returns the updated state and `some e` when an uncaught
exception aborted the run during this row. -/
def processRow (args : Args) (env : Env) (i : ℕ) (row : Row) (st : RunState) :
    RunState × Option LedgerErr :=
  let st := { st with counters.processed := st.counters.processed + 1 }
  match normalize_phone (some row.phone) with
  | none =>
      ({ st with
          counters.failed := st.counters.failed + 1
          records := st.records ++
            [(⟨[], row.first_name, .failed, unusable_info row.phone, []⟩ : RunRecord)] }, none)
  | some phone =>
      let first_name := pyStrip row.first_name
      let msg0 := pyFormat args.message first_name
      let msg :=
        if args.track_link then personalize_link_in_message msg0 phone args.link_field_name
        else msg0
      let r1 := run_osascript (env.primary i) args.dry_run
      let st := { st with dispatches := st.dispatches + 1 }
      if !r1.1 then
        let st := { st with
          records := st.records ++
            [(⟨phone, first_name, .failed, "imessage:".data ++ r1.2, msg⟩ : RunRecord)] }
        let r2 := run_osascript (env.fallback i) args.dry_run
        let st := { st with dispatches := st.dispatches + 1 }
        if r2.1 then
          ({ st with
              counters.sms_sent := st.counters.sms_sent + 1
              records := st.records ++ [(⟨phone, first_name, .sms_sent, r2.2, msg⟩ : RunRecord)] }, none)
        else
          ({ st with
              counters.sms_failed := st.counters.sms_failed + 1
              records := st.records ++ [(⟨phone, first_name, .sms_failed, r2.2, msg⟩ : RunRecord)] }, none)
      else
        let st := { st with
          counters.sent := st.counters.sent + 1
          records := st.records ++ [(⟨phone, first_name, .sent, r1.2, msg⟩ : RunRecord)] }
        if args.verify_imessage && !args.dry_run then
          match env.verify i phone with
          | .error e => (st, some e)
          | .ok true => (st, none)
          | .ok false =>
              let r3 := run_osascript (env.fallback i) false
              let st := { st with dispatches := st.dispatches + 1 }
              if r3.1 then
                ({ st with
                    counters.sms_sent := st.counters.sms_sent + 1
                    records := st.records ++ [(⟨phone, first_name, .sms_sent, r3.2, msg⟩ : RunRecord)] },
                  none)
              else
                ({ st with
                    counters.sms_failed := st.counters.sms_failed + 1
                    records := st.records ++ [(⟨phone, first_name, .sms_failed, r3.2, msg⟩ : RunRecord)] },
                  none)
        else (st, none)

/-- The row loop (lines 256-315): the limit check at the loop head, then the
row body; an uncaught exception stops the loop (and the whole run) early. -/
def mainLoop (args : Args) (env : Env) : List Row → ℕ → RunState → RunState × Option LedgerErr
  | [], _, st => (st, none)
  | row :: rest, i, st =>
      if args.limit ≠ 0 && decide (args.limit ≤ st.counters.processed) then (st, none)
      else
        match processRow args env i row st with
        | (st', none) => mainLoop args env rest (i + 1) st'
        | (st', some e) => (st', some e)

/-- The initial run state: all counters zero, empty log. -/
def initState : RunState := ⟨⟨0, 0, 0, 0, 0⟩, [], 0⟩

/-- A whole run of `main`'s row loop from the initial state. -/
def runMain (args : Args) (env : Env) (rows : List Row) : RunState × Option LedgerErr :=
  mainLoop args env rows 0 initState

/-! ## Normalization lemmas -/

lemma filter_nonspace_eq_filter_ne_space (s : Str)
    (h : ∀ c ∈ s, pyIsSpace c = true → c = ' ') :
    s.filter (fun c => !pyIsSpace c) = s.filter (fun c => c ≠ ' ') := by
  apply List.filter_congr
  intro c hc
  by_cases hsp : pyIsSpace c = true
  · have := h c hc hsp
    subst this
    simp [pyIsSpace]
  · have hne : c ≠ ' ' := by
      rintro rfl
      exact hsp (by simp [pyIsSpace])
    simp [hsp, hne]

lemma filter_digits_of_filter_ne_space (s : Str) (ds : Str)
    (h : s.filter (fun c => c ≠ ' ') = '+' :: ds) (hds : ds.all Char.isDigit = true) :
    s.filter Char.isDigit = ds := by
  have h1 : s.filter Char.isDigit = (s.filter (fun c => c ≠ ' ')).filter Char.isDigit := by
    rw [List.filter_filter]
    apply List.filter_congr
    intro c _
    by_cases hd : Char.isDigit c = true
    · have : c ≠ ' ' := by
        rintro rfl
        simp [Char.isDigit] at hd
      simp [hd, this]
    · simp [hd]
  rw [h1, h]
  have : Char.isDigit '+' = false := by decide
  simp only [List.filter, this]
  exact List.filter_eq_self.mpr (by simpa [List.all_eq_true] using hds)

lemma mem_space_of_plusdigits (s : Str) (ds : Str)
    (h : s.filter (fun c => c ≠ ' ') = '+' :: ds) (hds : ds.all Char.isDigit = true) :
    ∀ c ∈ s, pyIsSpace c = true → c = ' ' := by
  intro c hc hsp
  by_contra hne
  have hmem : c ∈ s.filter (fun c => c ≠ ' ') := List.mem_filter.mpr ⟨hc, by simpa using hne⟩
  rw [h, List.mem_cons] at hmem
  have hcases : c = ' ' ∨ c = Char.ofNat 9 ∨ c = Char.ofNat 10 ∨ c = Char.ofNat 13 ∨
      c = Char.ofNat 11 ∨ c = Char.ofNat 12 := by
    simpa [pyIsSpace, Bool.or_eq_true, decide_eq_true_eq, or_assoc] using hsp
  rcases hmem with rfl | hmem
  · rcases hcases with h0 | h0 | h0 | h0 | h0 | h0 <;> exact absurd h0 (by decide)
  · have hd : Char.isDigit c = true := by
      have := List.all_eq_true.mp hds
      simpa using this c hmem
    rcases hcases with rfl | rfl | rfl | rfl | rfl | rfl <;> exact absurd hd (by decide)

/-- The first branch of `normalize_phone` in explicit form. -/
lemma normalize_phone_plus_branch (raw : Str) (ds : Str)
    (h : (pyStrip raw).filter (fun c => c ≠ ' ') = '+' :: ds)
    (hds : ds.all Char.isDigit = true) (h8 : 8 ≤ ds.length) (h20 : ds.length ≤ 20) :
    normalize_phone (some raw) = some ('+' :: ds) := by
  have hguard : isPlusDigits ((pyStrip raw).filter (fun c => c ≠ ' ')) = true := by
    rw [h]
    simp [isPlusDigits, hds, h8, h20]
  have hout : (pyStrip raw).filter (fun c => !pyIsSpace c) = '+' :: ds := by
    rw [filter_nonspace_eq_filter_ne_space _ (mem_space_of_plusdigits _ _ h hds), h]
  simp only [ne_eq, decide_not] at hguard
  simp [normalize_phone, hguard, hout]

lemma isPlusDigits_destruct (t : Str) (h : isPlusDigits t = true) :
    ∃ ds, t = '+' :: ds ∧ ds.all Char.isDigit = true ∧ 8 ≤ ds.length ∧ ds.length ≤ 20 := by
  match t with
  | [] => simp [isPlusDigits] at h
  | c :: ds =>
      simp only [isPlusDigits, Bool.and_eq_true, decide_eq_true_eq, beq_iff_eq] at h
      exact ⟨ds, by rw [h.1.1.1], h.1.1.2, h.1.2, h.2⟩

/-! ## Claim C2 -/

/-- Claim C2, corrected: the claim asserts that normalization of
`"0123456789"` is unnormalizable, but the 10-digit rule applies with no
leading-zero restriction, giving `+10123456789`. -/
theorem C2_counterexample : ¬ normalize_phone (some "0123456789".data) = none := by decide

/-- Claim C2, amended: `"12"` and `"abc"` are unnormalizable (while
`"0123456789"` normalizes to `+10123456789` by the 10-digit rule), and a row
whose phone is unnormalizable produces exactly one RunRecord, with status
`failed`, zero dispatch attempts, an unchanged `sent`/`sms` tally, and no
exception. -/
theorem C2_normalize_invalid :
    normalize_phone (some "12".data) = none ∧
    normalize_phone (some "abc".data) = none ∧
    normalize_phone (some "0123456789".data) = some "+10123456789".data ∧
    ∀ (args : Args) (env : Env) (i : ℕ) (row : Row) (st : RunState),
      normalize_phone (some row.phone) = none →
      processRow args env i row st =
        ({ st with
            counters := { st.counters with
              processed := st.counters.processed + 1
              failed := st.counters.failed + 1 }
            records := st.records ++
              [⟨[], row.first_name, .failed, unusable_info row.phone, []⟩] }, none) := by
  refine ⟨by decide, by decide, by decide, ?_⟩
  intro args env i row st h
  simp [processRow, h]

/-- Witness for C2's amended theorem at a concrete unnormalizable row. -/
theorem C2_normalize_invalid_witness :
    processRow ⟨"Hi".data, false, 0, false, "cid".data, false⟩
        ⟨fun _ => (true, "ok".data), fun _ => (true, "ok".data), fun _ _ => .ok true⟩
        0 ⟨"12".data, "Ann".data⟩ initState =
      ({ initState with
          counters := { initState.counters with
            processed := initState.counters.processed + 1
            failed := initState.counters.failed + 1 }
          records := initState.records ++
            [⟨[], "Ann".data, .failed, unusable_info "12".data, []⟩] }, none) :=
  C2_normalize_invalid.2.2.2 _ _ 0 ⟨"12".data, "Ann".data⟩ initState (by decide)

/-! ## Claim C6 -/

/-- Claim C6, corrected: an identifier that is already `+`-prefixed can strip
to exactly 10 digits, and then the accept-as-is branch wins over the
prepend-`+1` rule the claim asserts. -/
theorem C6_counterexample :
    ("+1234567890".data.filter Char.isDigit).length = 10 ∧
    ¬ normalize_phone (some "+1234567890".data)
        = some ('+' :: '1' :: "+1234567890".data.filter Char.isDigit) := by decide

/-- Claim C6, amended: (1) an identifier that strips to exactly 10 digits and
is not already in accepted `+`-form normalizes to `+1` plus the digits; (2) an
identifier that strips to 11 digits with leading `1` normalizes to `+` plus
the digits (through either branch); (3) an identifier whose trimmed form is a
`+` followed by 8-20 digits interspersed only with spaces normalizes to the
`+` and the digits (all whitespace removed). -/
theorem C6_normalize_rules :
    (∀ raw : Str, isPlusDigits ((pyStrip raw).filter (fun c => c ≠ ' ')) = false →
      ((pyStrip raw).filter Char.isDigit).length = 10 →
      normalize_phone (some raw) = some ('+' :: '1' :: (pyStrip raw).filter Char.isDigit)) ∧
    (∀ raw : Str, ((pyStrip raw).filter Char.isDigit).length = 11 →
      ((pyStrip raw).filter Char.isDigit).take 1 = ['1'] →
      normalize_phone (some raw) = some ('+' :: (pyStrip raw).filter Char.isDigit)) ∧
    (∀ (raw ds : Str), (pyStrip raw).filter (fun c => c ≠ ' ') = '+' :: ds →
      ds.all Char.isDigit = true → 8 ≤ ds.length → ds.length ≤ 20 →
      normalize_phone (some raw) = some ('+' :: ds)) := by
  refine ⟨?_, ?_, fun raw ds h hds h8 h20 => normalize_phone_plus_branch raw ds h hds h8 h20⟩
  · intro raw hg hlen
    simp only [ne_eq, decide_not] at hg
    simp [normalize_phone, hg, hlen]
  · intro raw hlen htake
    by_cases hg : isPlusDigits ((pyStrip raw).filter (fun c => c ≠ ' ')) = true
    · obtain ⟨ds, ht, hall, h8, h20⟩ := isPlusDigits_destruct _ hg
      have hd : (pyStrip raw).filter Char.isDigit = ds :=
        filter_digits_of_filter_ne_space _ _ ht hall
      rw [hd]
      exact normalize_phone_plus_branch raw ds ht hall h8 h20
    · rw [Bool.not_eq_true] at hg
      simp only [ne_eq, decide_not] at hg
      simp [normalize_phone, hg, hlen, htake]

/-- Witness for C6's amended theorem at the spec's three examples. -/
theorem C6_normalize_rules_witness :
    normalize_phone (some "(555) 123-4567".data)
        = some ('+' :: '1' :: (pyStrip "(555) 123-4567".data).filter Char.isDigit) ∧
    normalize_phone (some "15551234567".data)
        = some ('+' :: (pyStrip "15551234567".data).filter Char.isDigit) ∧
    normalize_phone (some "+44 7911 123456".data) = some ('+' :: "447911123456".data) :=
  ⟨C6_normalize_rules.1 _ (by decide) (by decide),
    C6_normalize_rules.2.1 _ (by decide) (by decide),
    C6_normalize_rules.2.2 _ "447911123456".data (by decide) (by decide) (by decide)
      (by decide)⟩

/-! ## Claim C1 -/

/-- The three-row end-to-end input: an unnormalizable phone, a verified
delivered primary send, and a primary failure with fallback success. -/
def c1rows : List Row :=
  [⟨"abc".data, "Ann".data⟩, ⟨"(555) 123-4567".data, "Bob".data⟩,
    ⟨"+447911123456".data, "Cara".data⟩]

/-- Configuration of the end-to-end scenario: verification on, real mode. -/
def c1args : Args := ⟨"Hello".data, false, 0, false, "cid".data, true⟩

/-- External world of the end-to-end scenario: the primary dispatch fails on
row 2 only, the fallback succeeds, and the poller reports delivered. -/
def c1env : Env :=
  ⟨fun i => if i = 2 then (false, "not capable".data) else (true, "sent OK".data),
    fun _ => (true, "sms ok".data), fun _ _ => .ok true⟩

/-- Claim C1, confirmed: the 3-row scenario ends with `processed=3, failed=1,
sent=1, sms_sent=1, sms_failed=0` and exactly the four log records
`failed, sent, failed, sms_sent`; and in general a row whose primary dispatch
fails and whose fallback succeeds appends exactly two records, `failed` then
`sms_sent`, without raising. -/
theorem C1_end_to_end :
    ((runMain c1args c1env c1rows).1.counters = ⟨3, 1, 1, 1, 0⟩ ∧
      (runMain c1args c1env c1rows).1.records.map RunRecord.status
        = [.failed, .sent, .failed, .sms_sent] ∧
      (runMain c1args c1env c1rows).2 = none) ∧
    ∀ (args : Args) (env : Env) (i : ℕ) (row : Row) (st : RunState) (phone : Str),
      normalize_phone (some row.phone) = some phone →
      (run_osascript (env.primary i) args.dry_run).1 = false →
      (run_osascript (env.fallback i) args.dry_run).1 = true →
      (processRow args env i row st).1.records.map RunRecord.status
          = st.records.map RunRecord.status ++ [.failed, .sms_sent] ∧
        (processRow args env i row st).2 = none := by
  refine ⟨⟨by decide, by decide, by decide⟩, ?_⟩
  intro args env i row st phone hn h1 h2
  simp [processRow, hn, h1, h2]

/-- Witness for C1's general fail-then-fallback clause at a concrete row. -/
theorem C1_end_to_end_witness :
    (processRow ⟨"Hello".data, false, 0, false, "cid".data, true⟩
          ⟨fun _ => (false, "err".data), fun _ => (true, "sms ok".data), fun _ _ => .ok true⟩
          0 ⟨"(555) 123-4567".data, "Bob".data⟩ initState).1.records.map RunRecord.status
        = initState.records.map RunRecord.status ++ [.failed, .sms_sent] ∧
      (processRow ⟨"Hello".data, false, 0, false, "cid".data, true⟩
          ⟨fun _ => (false, "err".data), fun _ => (true, "sms ok".data), fun _ _ => .ok true⟩
          0 ⟨"(555) 123-4567".data, "Bob".data⟩ initState).2 = none :=
  C1_end_to_end.2 _ _ 0 ⟨"(555) 123-4567".data, "Bob".data⟩ initState "+15551234567".data
    (by decide) (by decide) (by decide)

/-! ## Claim C9 -/

/-- One-row input used to separate dry-run from a real all-success run. -/
def c9rows : List Row := [⟨"(555) 123-4567".data, "A".data⟩]

/-- Verification is enabled; `d` toggles dry-run. -/
def c9args (d : Bool) : Args := ⟨"Hello".data, d, 0, false, "cid".data, true⟩

/-- Every dispatch succeeds, but the poller reports undelivered. -/
def c9env : Env :=
  ⟨fun _ => (true, "ok".data), fun _ => (true, "sms".data), fun _ _ => .ok false⟩

/-- Claim C9, corrected: with verification enabled and an environment where
every dispatch succeeds, the dry-run record trace differs from the real one
(`[sent]` vs `[sent, sms_sent]`), because line 299 skips the verification
branch entirely in dry-run mode. -/
theorem C9_counterexample :
    ¬ (runMain (c9args true) c9env c9rows).1.records.map RunRecord.status
        = (runMain (c9args false) c9env c9rows).1.records.map RunRecord.status := by decide

/-- The real-mode environment a dry run is equivalent to: every dispatch
succeeds with the fixed diagnostic `dry-run` and the poller reports
delivered. -/
def envAllSucc : Env :=
  ⟨fun _ => (true, "dry-run".data), fun _ => (true, "dry-run".data), fun _ _ => .ok true⟩

lemma processRow_dry_eq (args : Args) (env : Env) (i : ℕ) (row : Row) (st : RunState) :
    processRow { args with dry_run := true } env i row st =
      processRow { args with dry_run := false } envAllSucc i row st := by
  simp only [processRow]
  cases normalize_phone (some row.phone) with
  | none => rfl
  | some phone =>
      by_cases hv : args.verify_imessage <;> simp [run_osascript, envAllSucc, hv]

/-- Claim C9, amended: a dry run is observably identical (counters, records,
dispatch count, exception status) to a real run in which every dispatch
succeeds with diagnostic `dry-run` and verification reports delivered; but
(per the counterexample) not to all-success runs whose verification reports
undelivered, since dry-run never enters the verification branch. -/
theorem C9_dry_run_equiv :
    ∀ (args : Args) (env : Env) (rows : List Row),
      runMain { args with dry_run := true } env rows
        = runMain { args with dry_run := false } envAllSucc rows := by
  intro args env rows
  suffices h : ∀ (rows : List Row) (i : ℕ) (st : RunState),
      mainLoop { args with dry_run := true } env rows i st
        = mainLoop { args with dry_run := false } envAllSucc rows i st from
    h rows 0 initState
  intro rows
  induction rows with
  | nil => intro i st; rfl
  | cons row rest ih =>
      intro i st
      simp only [mainLoop]
      by_cases hl : args.limit ≠ 0 ∧ args.limit ≤ st.counters.processed
      · simp [hl]
      · have hl2 : ¬(¬args.limit = 0 ∧ args.limit ≤ st.counters.processed) := by
          simpa using hl
        simp only [Bool.and_eq_true, decide_eq_true_eq, ne_eq, if_neg hl2]
        rw [processRow_dry_eq]
        cases hp : processRow { args with dry_run := false } envAllSucc i row st with
        | mk st' e =>
            cases e with
            | none => simpa using ih (i + 1) st'
            | some err => simp

/-! ## Claim C10 -/

lemma processRow_processed (args : Args) (env : Env) (i : ℕ) (row : Row) (st : RunState) :
    (processRow args env i row st).1.counters.processed = st.counters.processed + 1 := by
  simp only [processRow]
  cases normalize_phone (some row.phone) with
  | none => rfl
  | some phone =>
      dsimp only
      repeat' split
      all_goals rfl

lemma processRow_failed (args : Args) (env : Env) (i : ℕ) (row : Row) (st : RunState) :
    (processRow args env i row st).1.counters.failed =
      st.counters.failed + (if (normalize_phone (some row.phone)).isNone then 1 else 0) := by
  simp only [processRow]
  cases normalize_phone (some row.phone) with
  | none => rfl
  | some phone =>
      simp only [Option.isNone_some, Bool.false_eq_true, if_false]
      repeat' split
      all_goals rfl

lemma mainLoop_failed_count (args : Args) (env : Env) :
    ∀ (rows : List Row) (i : ℕ) (st : RunState),
      ∃ k ≤ rows.length,
        (mainLoop args env rows i st).1.counters.processed = st.counters.processed + k ∧
        (mainLoop args env rows i st).1.counters.failed = st.counters.failed +
          (rows.take k).countP (fun r => (normalize_phone (some r.phone)).isNone) := by
  intro rows
  induction rows with
  | nil => intro i st; exact ⟨0, by simp, by simp [mainLoop], by simp [mainLoop]⟩
  | cons row rest ih =>
      intro i st
      by_cases hl : args.limit ≠ 0 ∧ args.limit ≤ st.counters.processed
      · refine ⟨0, by simp, ?_, ?_⟩ <;> simp [mainLoop, hl]
      · have hl2 : ¬(¬args.limit = 0 ∧ args.limit ≤ st.counters.processed) := by simpa using hl
        cases hp : processRow args env i row st with
        | mk st' e =>
            have hproc : st'.counters.processed = st.counters.processed + 1 := by
              have := processRow_processed args env i row st
              rw [hp] at this
              exact this
            have hfail : st'.counters.failed = st.counters.failed +
                (if (normalize_phone (some row.phone)).isNone then 1 else 0) := by
              have := processRow_failed args env i row st
              rw [hp] at this
              exact this
            cases e with
            | some err =>
                refine ⟨1, by simp, ?_, ?_⟩ <;>
                  simp [mainLoop, Bool.and_eq_true, decide_eq_true_eq, if_neg hl2, hp,
                    hproc, hfail, List.countP_cons]
            | none =>
                obtain ⟨k, hk, h1, h2⟩ := ih (i + 1) st'
                refine ⟨k + 1, by simpa using hk, ?_, ?_⟩
                · simp only [mainLoop, Bool.and_eq_true, decide_eq_true_eq, ne_eq,
                    if_neg hl2, hp]
                  omega
                · simp only [mainLoop, Bool.and_eq_true, decide_eq_true_eq, ne_eq,
                    if_neg hl2, hp, List.take_succ_cons, List.countP_cons]
                  rw [h2, hfail]
                  simp [List.countP_cons]
                  omega

/-- Claim C10, confirmed: the final `failed` counter equals the number of
processed rows whose normalization failed; a row whose primary dispatch fails
leaves `failed` and `sent` untouched, appends a `failed` record, and only the
fallback attempt bumps `sms_sent` or `sms_failed`. -/
theorem C10_failed_counter :
    (∀ (args : Args) (env : Env) (rows : List Row),
      (runMain args env rows).1.counters.failed =
        (rows.take (runMain args env rows).1.counters.processed).countP
          (fun r => (normalize_phone (some r.phone)).isNone)) ∧
    ∀ (args : Args) (env : Env) (i : ℕ) (row : Row) (st : RunState) (phone : Str),
      normalize_phone (some row.phone) = some phone →
      (run_osascript (env.primary i) args.dry_run).1 = false →
      (processRow args env i row st).1.counters.failed = st.counters.failed ∧
      (processRow args env i row st).1.counters.sent = st.counters.sent ∧
      (processRow args env i row st).1.counters.processed = st.counters.processed + 1 ∧
      ((run_osascript (env.fallback i) args.dry_run).1 = true →
        (processRow args env i row st).1.counters.sms_sent = st.counters.sms_sent + 1 ∧
        (processRow args env i row st).1.counters.sms_failed = st.counters.sms_failed) ∧
      ((run_osascript (env.fallback i) args.dry_run).1 = false →
        (processRow args env i row st).1.counters.sms_failed = st.counters.sms_failed + 1 ∧
        (processRow args env i row st).1.counters.sms_sent = st.counters.sms_sent) := by
  constructor
  · intro args env rows
    obtain ⟨k, hk, h1, h2⟩ := mainLoop_failed_count args env rows 0 initState
    simp only [runMain, initState] at h1 h2 ⊢
    rw [h2, h1]
    norm_num
  · intro args env i row st phone hn h1
    cases hf : (run_osascript (env.fallback i) args.dry_run).1 with
    | true => simp [processRow, hn, h1, hf]
    | false => simp [processRow, hn, h1, hf]

/-- Witness for C10 at a concrete primary-failure row. -/
theorem C10_failed_counter_witness :
    (processRow ⟨"Hello".data, false, 0, false, "cid".data, false⟩
          ⟨fun _ => (false, "err".data), fun _ => (false, "err2".data), fun _ _ => .ok true⟩
          0 ⟨"15551234567".data, "A".data⟩ initState).1.counters.failed
        = initState.counters.failed ∧
      (processRow ⟨"Hello".data, false, 0, false, "cid".data, false⟩
          ⟨fun _ => (false, "err".data), fun _ => (false, "err2".data), fun _ _ => .ok true⟩
          0 ⟨"15551234567".data, "A".data⟩ initState).1.counters.sms_failed
        = initState.counters.sms_failed + 1 := by
  have h := C10_failed_counter.2 ⟨"Hello".data, false, 0, false, "cid".data, false⟩
    ⟨fun _ => (false, "err".data), fun _ => (false, "err2".data), fun _ _ => .ok true⟩
    0 ⟨"15551234567".data, "A".data⟩ initState "+15551234567".data (by decide) (by decide)
  exact ⟨h.1, (h.2.2.2.2 (by decide)).1⟩

/-! ## Claim C5 -/

/-- A snapshot source whose copy step raises on every iteration. -/
def c5copyFail : ℕ → Except LedgerErr ChatDb := fun _ => .error .copyFail

/-- Two valid rows; the run should visit both if ledger errors were not fatal. -/
def c5rows : List Row :=
  [⟨"(555) 123-4567".data, "A".data⟩, ⟨"(555) 123-4568".data, "B".data⟩]

/-- Verification enabled, real mode. -/
def c5args : Args := ⟨"Hello".data, false, 0, false, "cid".data, true⟩

/-- Dispatch always succeeds; verification runs `verify_delivery` against the
failing snapshot source (wait 2, timeout 8, the defaults). -/
def c5env : Env :=
  ⟨fun _ => (true, "ok".data), fun _ => (true, "sms".data),
    fun _ phone => verify_delivery c5copyFail phone 2 8⟩

lemma verifyLoop_copyFail (phone : Str) (k : ℕ) :
    verifyLoop c5copyFail phone 2 8 k = .error .copyFail := by
  rw [verifyLoop]
  rfl

lemma c5env_eq :
    c5env = ⟨fun _ => (true, "ok".data), fun _ => (true, "sms".data),
      fun _ _ => .error .copyFail⟩ := by
  show Env.mk _ _ _ = _
  congr 1
  funext i phone
  simp only [verify_delivery, verifyLoop_copyFail]
  rfl

/-- Claim C5, corrected: a ledger-access error is fatal.  A copy failure makes
`verify_delivery` raise, and the raised error aborts the run after the first
recipient: the second row is never processed and the run ends with the error,
contradicting the claim that such errors are never fatal. -/
theorem C5_counterexample :
    verify_delivery c5copyFail "+15551234567".data 2 8 = .error .copyFail ∧
    (runMain c5args c5env c5rows).2 = some .copyFail ∧
    (runMain c5args c5env c5rows).1.counters.processed = 1 ∧
    (runMain c5args c5env c5rows).1.records.map RunRecord.status = [.sent] := by
  refine ⟨by simp only [verify_delivery, verifyLoop_copyFail]; rfl, ?_, ?_, ?_⟩ <;>
    · rw [c5env_eq]
      decide

/-- Claim C5, amended: a ledger-access failure surfacing from
`verify_delivery` (for example a copy failure on the first poll iteration)
propagates out of the row body as an uncaught exception and stops the loop,
so subsequent recipients are not processed; only a *readable* snapshot whose
schema merely lacks both delivery columns is treated as undelivered and is
not fatal. -/
theorem C5_ledger_error_aborts :
    (∀ (copyFn : ℕ → Except LedgerErr ChatDb) (phone : Str) (wait timeout : ℚ)
        (e : LedgerErr), copyFn 0 = .error e →
      verify_delivery copyFn phone wait timeout = .error e) ∧
    (∀ (args : Args) (env : Env) (i : ℕ) (row : Row) (st : RunState) (phone : Str)
        (e : LedgerErr),
      normalize_phone (some row.phone) = some phone →
      args.verify_imessage = true → args.dry_run = false →
      (run_osascript (env.primary i) false).1 = true →
      env.verify i phone = .error e →
      (processRow args env i row st).2 = some e) ∧
    (∀ (args : Args) (env : Env) (rest : List Row) (i : ℕ) (row : Row) (st : RunState)
        (e : LedgerErr),
      ¬(args.limit ≠ 0 ∧ args.limit ≤ st.counters.processed) →
      (processRow args env i row st).2 = some e →
      mainLoop args env (row :: rest) i st = ((processRow args env i row st).1, some e)) ∧
    (∀ (db : ChatDb) (phone : Str), db.hasIsDelivered = false →
      db.hasDateDelivered = false → snapshot_check db phone = true) := by
  refine ⟨?_, ?_, ?_, ?_⟩
  · intro copyFn phone wait timeout e h
    rw [verify_delivery, verifyLoop, h]
    rfl
  · intro args env i row st phone e hn hv hd h1 hverr
    simp [processRow, hn, hv, hd, h1, hverr]
  · intro args env rest i row st e hl hp
    cases hpr : processRow args env i row st with
    | mk st' e' =>
        rw [hpr] at hp
        simp only at hp
        subst hp
        simp [mainLoop, if_neg, hl, hpr]
  · intro db phone h1 h2
    simp only [snapshot_check]
    cases hf : find_handle_for_phone db phone with
    | none => rfl
    | some h =>
        cases h with
        | mk hid addr =>
            by_cases h0 : hid = 0
            · simp [h0]
            · simp only [h0, if_false]
              rcases hlat : latest_outgoing_for_handle db hid with ⟨r, b1, b2⟩
              have hb1 : b1 = false := by
                have : (latest_outgoing_for_handle db hid).2.1 = db.hasIsDelivered := rfl
                rw [hlat] at this
                simp at this
                rw [this, h1]
              have hb2 : b2 = false := by
                have : (latest_outgoing_for_handle db hid).2.2 = db.hasDateDelivered := rfl
                rw [hlat] at this
                simp at this
                rw [this, h2]
              subst hb1
              subst hb2
              cases r with
              | none => rfl
              | some row => simp [is_undelivered]

/-- Witness for C5's amended theorem: the concrete aborted two-row run. -/
theorem C5_ledger_error_aborts_witness :
    verify_delivery c5copyFail "+15551234567".data 2 8 = .error .copyFail ∧
    mainLoop c5args ⟨fun _ => (true, "ok".data), fun _ => (true, "sms".data),
        fun _ _ => .error .copyFail⟩ c5rows 0 initState
      = ((processRow c5args ⟨fun _ => (true, "ok".data), fun _ => (true, "sms".data),
          fun _ _ => .error .copyFail⟩ 0 ⟨"(555) 123-4567".data, "A".data⟩ initState).1,
          some .copyFail) ∧
    snapshot_check ⟨[(1, "5551234567".data)], [], false, false⟩ "+15551234567".data = true :=
  ⟨C5_ledger_error_aborts.1 c5copyFail "+15551234567".data 2 8 .copyFail rfl,
    C5_ledger_error_aborts.2.2.1 c5args _ [⟨"(555) 123-4568".data, "B".data⟩] 0
      ⟨"(555) 123-4567".data, "A".data⟩ initState .copyFail (by decide)
      (C5_ledger_error_aborts.2.1 c5args _ 0 ⟨"(555) 123-4567".data, "A".data⟩ initState
        "+15551234567".data .copyFail (by decide) (by decide) (by decide) (by decide) rfl),
    C5_ledger_error_aborts.2.2.2 ⟨[(1, "5551234567".data)], [], false, false⟩
      "+15551234567".data rfl rfl⟩

/-! ## Claim C3 -/

/-- Claim C3, confirmed: for a fetched row, `is_undelivered` is true exactly
when the boolean flag column is present with value 0, or the timestamp column
is present and NULL or 0, or neither column exists in the schema; and a
snapshot in which no identity record matches is reported undelivered. -/
theorem C3_undelivered_characterization :
    (∀ (r : FetchedRow) (h1 h2 : Bool),
      is_undelivered (some r) h1 h2 = true ↔
        ((h1 = true ∧ r.is_delivered = some 0) ∨
          (h2 = true ∧ (r.date_delivered = none ∨ r.date_delivered = some 0)) ∨
          (h1 = false ∧ h2 = false))) ∧
    ∀ (db : ChatDb) (phone : Str),
      find_handle_for_phone db phone = none → snapshot_check db phone = true := by
  constructor
  · intro r h1 h2
    cases h1 <;> cases h2 <;> simp [is_undelivered]
  · intro db phone h
    simp [snapshot_check, h]

/-- Witness for C3 at a delivered-flag-0 row and an empty snapshot. -/
theorem C3_undelivered_characterization_witness :
    is_undelivered (some ⟨1, 5, [], some 0, some 7⟩) true true = true ∧
    snapshot_check ⟨[], [], true, true⟩ "+15551234567".data = true :=
  ⟨(C3_undelivered_characterization.1 ⟨1, 5, [], some 0, some 7⟩ true true).mpr
      (Or.inl ⟨rfl, rfl⟩),
    C3_undelivered_characterization.2 ⟨[], [], true, true⟩ "+15551234567".data rfl⟩

/-! ## Claim C8 -/

lemma mem_insertDescBy (key : α → Int) (x : α) (l : List α) (a : α) :
    a ∈ insertDescBy key x l ↔ a = x ∨ a ∈ l := by
  induction l with
  | nil => simp [insertDescBy]
  | cons y t ih =>
      simp only [insertDescBy]
      split
      · simp [or_comm, or_assoc, or_left_comm]
      · simp [ih]
        tauto

lemma mem_sortDescBy (key : α → Int) (l : List α) (a : α) :
    a ∈ sortDescBy key l ↔ a ∈ l := by
  induction l with
  | nil => simp [sortDescBy]
  | cons y t ih => simp [sortDescBy, mem_insertDescBy, ih]

lemma pairwise_insertDescBy (key : α → Int) (x : α) (l : List α)
    (h : l.Pairwise (fun a b => key b ≤ key a)) :
    (insertDescBy key x l).Pairwise (fun a b => key b ≤ key a) := by
  induction l with
  | nil => simp [insertDescBy]
  | cons y t ih =>
      rcases List.pairwise_cons.mp h with ⟨hy, ht⟩
      simp only [insertDescBy]
      split
      · rename_i hle
        refine List.pairwise_cons.mpr ⟨?_, h⟩
        intro b hb
        rcases List.mem_cons.mp hb with rfl | hb
        · exact hle
        · exact le_trans (hy b hb) hle
      · rename_i hgt
        refine List.pairwise_cons.mpr ⟨?_, ih ht⟩
        intro b hb
        rcases (mem_insertDescBy key x t b).mp hb with rfl | hb
        · exact le_of_not_le hgt
        · exact hy b hb

lemma pairwise_sortDescBy (key : α → Int) (l : List α) :
    (sortDescBy key l).Pairwise (fun a b => key b ≤ key a) := by
  induction l with
  | nil => simp [sortDescBy]
  | cons y t ih => exact pairwise_insertDescBy key y _ ih

lemma find?_is_max (key : α → Int) (p : α → Bool) :
    ∀ (l : List α) (hd : α), l.Pairwise (fun a b => key b ≤ key a) →
      l.find? p = some hd → ∀ a ∈ l, p a = true → key a ≤ key hd := by
  intro l
  induction l with
  | nil => intro hd _ h; simp at h
  | cons y t ih =>
      intro hd hp hf a ha hpa
      rcases List.pairwise_cons.mp hp with ⟨hy, ht⟩
      by_cases hpy : p y = true
      · rw [List.find?_cons_of_pos _ hpy] at hf
        cases hf
        rcases List.mem_cons.mp ha with rfl | ha
        · exact le_refl _
        · exact hy a ha
      · rw [List.find?_cons_of_neg _ hpy] at hf
        rcases List.mem_cons.mp ha with rfl | ha
        · exact absurd hpa hpy
        · exact ih hd ht hf a ha hpa

/-- Claim C8, confirmed: `find_handle_for_phone` returns a handle row of the
snapshot whose digits-only id ends with the digits-only phone and whose ROWID
is maximal among all such rows (the first match of the most-recent-first
scan), and returns nothing exactly when no handle row matches. -/
theorem C8_handle_match :
    ∀ (db : ChatDb) (phone : Str),
      (∀ hd, find_handle_for_phone db phone = some hd →
        hd ∈ db.handles ∧
        (digits_only phone).isSuffixOf (digits_only hd.2) = true ∧
        ∀ h2 ∈ db.handles, (digits_only phone).isSuffixOf (digits_only h2.2) = true →
          h2.1 ≤ hd.1) ∧
      (find_handle_for_phone db phone = none ↔
        ∀ h2 ∈ db.handles, ¬(digits_only phone).isSuffixOf (digits_only h2.2) = true) := by
  intro db phone
  constructor
  · intro hd hf
    simp only [find_handle_for_phone] at hf
    have hsuf := List.find?_some hf
    refine ⟨(mem_sortDescBy _ _ _).mp (List.mem_of_find?_eq_some hf), by simpa using hsuf, ?_⟩
    intro h2 hmem hs
    exact find?_is_max (fun h => h.1) _ _ hd (pairwise_sortDescBy _ _) hf h2
      ((mem_sortDescBy _ _ _).mpr hmem) hs
  · simp only [find_handle_for_phone, List.find?_eq_none]
    constructor
    · intro h h2 hmem
      exact h h2 ((mem_sortDescBy _ _ _).mpr hmem)
    · intro h h2 hmem
      exact h h2 ((mem_sortDescBy _ _ _).mp hmem)

/-- Witness for C8 on a three-handle snapshot. -/
theorem C8_handle_match_witness :
    ((1 : Int), "15551234567".data) ∈
        (⟨[(1, "15551234567".data), (2, "447911123456".data), (3, "5551234567".data)], [],
          true, true⟩ : ChatDb).handles ∧
      (digits_only "+15551234567".data).isSuffixOf
          (digits_only "15551234567".data) = true ∧
      ∀ h2 ∈ (⟨[(1, "15551234567".data), (2, "447911123456".data), (3, "5551234567".data)],
          [], true, true⟩ : ChatDb).handles,
        (digits_only "+15551234567".data).isSuffixOf (digits_only h2.2) = true →
          h2.1 ≤ (1 : Int) :=
  (C8_handle_match ⟨[(1, "15551234567".data), (2, "447911123456".data),
      (3, "5551234567".data)], [], true, true⟩ "+15551234567".data).1
    (1, "15551234567".data) (by decide)

/-! ## Claim C4 -/

/-- A snapshot with no matching identity: every check reports undelivered. -/
def dbUndel : ChatDb := ⟨[], [], true, true⟩

/-- A snapshot whose latest outgoing message to the matched handle is
delivered (flag 1, timestamp 7). -/
def dbDel : ChatDb :=
  ⟨[(1, "15551234567".data)], [⟨1, 1, 1, 100, [], some 1, some 7⟩], true, true⟩

/-- The polled identity of the C4 scenarios. -/
def c4phone : Str := "+15551234567".data

/-- Reader stub: undelivered for the first `N` reads, delivered afterwards. -/
def c4stub (N : ℕ) : ℕ → Except LedgerErr ChatDb :=
  fun k => .ok (if k < N then dbUndel else dbDel)

lemma snapshot_check_dbUndel : snapshot_check dbUndel c4phone = true := by decide

lemma snapshot_check_dbDel : snapshot_check dbDel c4phone = false := by decide

lemma c4stub_loop (N : ℕ) :
    ∀ (d j : ℕ), j + d = N →
      verifyLoop (c4stub N) c4phone 0 (N + 1/2) j = .ok (true, N + 1) := by
  intro d
  induction d with
  | zero =>
      intro j hj
      rw [Nat.add_zero] at hj
      subst hj
      rw [verifyLoop]
      have hc : c4stub j j = .ok dbDel := by simp [c4stub]
      rw [hc]
      simp [snapshot_check_dbDel]
  | succ d ih =>
      intro j hj
      rw [verifyLoop]
      have hc : c4stub N j = .ok dbUndel := by
        simp only [c4stub, if_pos (by omega : j < N)]
      rw [hc]
      have hto : ¬((N : ℚ) + 1/2 ≤ max 0 0 + j) := by
        have : (j : ℚ) + 1 ≤ (N : ℚ) := by exact_mod_cast Nat.succ_le_of_lt (by omega)
        simp only [max_self, zero_add]
        linarith
      simp only [snapshot_check_dbUndel, Bool.not_true, Bool.false_eq_true, if_false,
        if_neg hto]
      exact ih (j + 1) (by omega)

lemma c4never_loop (timeout : ℚ) (ht : 0 ≤ timeout) :
    ∀ (d j : ℕ), j + d = (⌈timeout⌉).toNat →
      verifyLoop (fun _ => .ok dbUndel) c4phone 0 timeout j
        = .ok (false, (⌈timeout⌉).toNat + 1) := by
  intro d
  induction d with
  | zero =>
      intro j hj
      rw [Nat.add_zero] at hj
      subst hj
      rw [verifyLoop]
      have hto : timeout ≤ max 0 0 + ((⌈timeout⌉).toNat : ℚ) := by
        have h1 : timeout ≤ (⌈timeout⌉ : ℚ) := Int.le_ceil timeout
        have h2 : ((⌈timeout⌉).toNat : ℤ) = ⌈timeout⌉ :=
          Int.toNat_of_nonneg (Int.ceil_nonneg ht)
        simp only [max_self, zero_add]
        calc timeout ≤ (⌈timeout⌉ : ℚ) := h1
          _ = (((⌈timeout⌉).toNat : ℤ) : ℚ) := by exact_mod_cast h2.symm
          _ = ((⌈timeout⌉).toNat : ℚ) := by push_cast; ring
      simp [snapshot_check_dbUndel, hto]
      intro h
      exfalso
      simp only [max_self, zero_add] at hto
      linarith
  | succ d ih =>
      intro j hj
      rw [verifyLoop]
      have hto : ¬(timeout ≤ max 0 0 + (j : ℚ)) := by
        have hjc : (j : ℤ) < ⌈timeout⌉ := by
          have : j < (⌈timeout⌉).toNat := by omega
          omega
        have : (j : ℚ) < timeout := by exact_mod_cast Int.lt_ceil.mp hjc
        simp only [max_self, zero_add]
        linarith
      simp only [snapshot_check_dbUndel, Bool.not_true, Bool.false_eq_true, if_false,
        if_neg hto]
      exact ih (j + 1) (by omega)

/-- Claim C4, confirmed: the poll loop returns true immediately on a
delivered read; returns false on an undelivered read once the elapsed time
(`max 0 wait` initial sleep plus one unit per interval) has reached the
deadline; otherwise sleeps one interval and repeats.  Consequently the
first-N-undelivered stub with `wait=0, deadline=N+1/2` yields true after
exactly `N+1` reader invocations, and the never-delivered stub yields false
at an elapsed time in `[deadline, deadline+1)`. -/
theorem C4_poller :
    (∀ (copyFn : ℕ → Except LedgerErr ChatDb) (phone : Str) (wait timeout : ℚ) (k : ℕ)
        (db : ChatDb), copyFn k = .ok db → snapshot_check db phone = false →
      verifyLoop copyFn phone wait timeout k = .ok (true, k + 1)) ∧
    (∀ (copyFn : ℕ → Except LedgerErr ChatDb) (phone : Str) (wait timeout : ℚ) (k : ℕ)
        (db : ChatDb), copyFn k = .ok db → snapshot_check db phone = true →
      timeout ≤ max 0 wait + k →
      verifyLoop copyFn phone wait timeout k = .ok (false, k + 1)) ∧
    (∀ (copyFn : ℕ → Except LedgerErr ChatDb) (phone : Str) (wait timeout : ℚ) (k : ℕ)
        (db : ChatDb), copyFn k = .ok db → snapshot_check db phone = true →
      ¬(timeout ≤ max 0 wait + k) →
      verifyLoop copyFn phone wait timeout k = verifyLoop copyFn phone wait timeout (k + 1)) ∧
    (∀ N : ℕ, verifyLoop (c4stub N) c4phone 0 (N + 1/2) 0 = .ok (true, N + 1)) ∧
    (∀ timeout : ℚ, 0 ≤ timeout →
      ∃ n : ℕ, verifyLoop (fun _ => .ok dbUndel) c4phone 0 timeout 0 = .ok (false, n + 1) ∧
        timeout ≤ (n : ℚ) ∧ (n : ℚ) < timeout + 1) := by
  refine ⟨?_, ?_, ?_, ?_, ?_⟩
  · intro copyFn phone wait timeout k db hc hs
    rw [verifyLoop, hc]
    simp [hs]
  · intro copyFn phone wait timeout k db hc hs hto
    rw [verifyLoop, hc]
    simp [hs, hto]
  · intro copyFn phone wait timeout k db hc hs hto
    conv_lhs => rw [verifyLoop]
    rw [hc]
    simp [hs, hto]
  · intro N
    exact c4stub_loop N N 0 (by omega)
  · intro timeout ht
    refine ⟨(⌈timeout⌉).toNat, c4never_loop timeout ht (⌈timeout⌉).toNat 0 (by omega), ?_, ?_⟩
    · have h1 : timeout ≤ (⌈timeout⌉ : ℚ) := Int.le_ceil timeout
      have h2 : ((⌈timeout⌉).toNat : ℤ) = ⌈timeout⌉ := Int.toNat_of_nonneg (Int.ceil_nonneg ht)
      calc timeout ≤ (⌈timeout⌉ : ℚ) := h1
        _ = (((⌈timeout⌉).toNat : ℤ) : ℚ) := by exact_mod_cast h2.symm
        _ = ((⌈timeout⌉).toNat : ℚ) := by push_cast; ring
    · have h1 : (⌈timeout⌉ : ℚ) < timeout + 1 := Int.ceil_lt_add_one timeout
      have h2 : ((⌈timeout⌉).toNat : ℤ) = ⌈timeout⌉ := Int.toNat_of_nonneg (Int.ceil_nonneg ht)
      calc ((⌈timeout⌉).toNat : ℚ) = (((⌈timeout⌉).toNat : ℤ) : ℚ) := by push_cast; ring
        _ = (⌈timeout⌉ : ℚ) := by exact_mod_cast h2
        _ < timeout + 1 := h1

/-- Witness for C4: the stub scenarios at `N = 2` and `deadline = 5/2`. -/
theorem C4_poller_witness :
    verifyLoop (c4stub 2) c4phone 0 ((2 : ℕ) + 1/2) 0 = .ok (true, 2 + 1) ∧
    (∃ n : ℕ, verifyLoop (fun _ => .ok dbUndel) c4phone 0 (5/2) 0 = .ok (false, n + 1) ∧
      (5/2 : ℚ) ≤ (n : ℚ) ∧ (n : ℚ) < 5/2 + 1) :=
  ⟨C4_poller.2.2.2.1 2, C4_poller.2.2.2.2 (5/2) (by norm_num)⟩

/-! ## Claim C7: split/join infrastructure -/

/-- Python `q[key]` read on the ordered dict model. -/
def qlookup (k : Str) : List (Str × Str) → Option Str
  | [] => none
  | (k0, v) :: t => if k0 = k then some v else qlookup k t

lemma splitFirst_eq_some (sep : Char) :
    ∀ (s a b : Str), splitFirst sep s = (a, some b) → s = a ++ sep :: b ∧ sep ∉ a := by
  intro s
  induction s with
  | nil => intro a b h; simp [splitFirst] at h
  | cons c t ih =>
      intro a b h
      simp only [splitFirst] at h
      by_cases hc : c = sep
      · simp only [hc, if_pos rfl] at h
        cases h
        simp_all
      · rw [if_neg hc] at h
        cases ha : splitFirst sep t with
        | mk a' b' =>
            rw [ha] at h
            cases b' with
            | none => simp at h
            | some b2 =>
                simp only [Prod.mk.injEq] at h
                obtain ⟨ha1, hb1⟩ := h
                obtain ⟨ht, hsep⟩ := ih a' b2 ha
                subst ha1
                cases hb1
                constructor
                · simp [ht]
                · simp [hsep, Ne.symm, hc]

lemma splitFirst_eq_none (sep : Char) :
    ∀ (s a : Str), splitFirst sep s = (a, none) → s = a ∧ sep ∉ a := by
  intro s
  induction s with
  | nil => intro a h; simp only [splitFirst, Prod.mk.injEq] at h; simp [h.1.symm]
  | cons c t ih =>
      intro a h
      simp only [splitFirst] at h
      by_cases hc : c = sep
      · simp [hc] at h
      · rw [if_neg hc] at h
        cases ha : splitFirst sep t with
        | mk a' b' =>
            rw [ha] at h
            cases b' with
            | some b2 => simp at h
            | none =>
                simp only [Prod.mk.injEq] at h
                obtain ⟨ha1, -⟩ := h
                obtain ⟨ht, hsep⟩ := ih a' ha
                subst ha1
                subst ht
                exact ⟨rfl, by simp [hsep, Ne.symm, hc]⟩

lemma splitFirst_append_sep (sep : Char) :
    ∀ (a b : Str), sep ∉ a → splitFirst sep (a ++ sep :: b) = (a, some b) := by
  intro a
  induction a with
  | nil => intro b _; simp [splitFirst]
  | cons c t ih =>
      intro b hmem
      have hc : c ≠ sep := by intro h; exact hmem (by simp [h])
      simp [splitFirst, if_neg hc, ih b (fun h => hmem (List.mem_cons_of_mem _ h))]

lemma splitFirst_no_sep (sep : Char) :
    ∀ (a : Str), sep ∉ a → splitFirst sep a = (a, none) := by
  intro a
  induction a with
  | nil => intro _; rfl
  | cons c t ih =>
      intro hmem
      have hc : c ≠ sep := by intro h; exact hmem (by simp [h])
      simp [splitFirst, if_neg hc, ih (fun h => hmem (List.mem_cons_of_mem _ h))]

/-- `splitParams` on a string whose last `/` is displayed. -/
lemma splitParams_append_slash (pre seg : Str) (hseg : '/' ∉ seg) :
    splitParams (pre ++ '/' :: seg) =
      match splitFirst ';' seg with
      | (_, none) => (pre ++ '/' :: seg, [])
      | (bs, some ps) => (pre ++ '/' :: bs, ps) := by
  have hrev : (pre ++ '/' :: seg).reverse = seg.reverse ++ '/' :: pre.reverse := by simp
  have h1 : splitFirst '/' (pre ++ '/' :: seg).reverse = (seg.reverse, some pre.reverse) := by
    rw [hrev]
    exact splitFirst_append_sep '/' seg.reverse pre.reverse (by simpa using hseg)
  simp only [splitParams, h1, List.reverse_reverse]

/-- `splitParams` on a slash-free string. -/
lemma splitParams_no_slash (a : Str) (h : '/' ∉ a) :
    splitParams a =
      match splitFirst ';' a with
      | (_, none) => (a, [])
      | (bs, some ps) => (bs, ps) := by
  have h1 : splitFirst '/' a.reverse = (a.reverse, none) :=
    splitFirst_no_sep '/' a.reverse (by simpa using h)
  simp only [splitParams, h1, List.reverse_reverse]

/-- Splitting the recombined `path[;params]` gives the same split back:
re-parsing what `urlunparse` emits is stable even though a trailing `;` with
empty params would have been dropped. -/
lemma splitParams_combine (u : Str) :
    splitParams (if (splitParams u).2 = [] then (splitParams u).1
      else (splitParams u).1 ++ ';' :: (splitParams u).2) = splitParams u := by
  rcases h1 : splitFirst '/' u.reverse with ⟨revAfter, o⟩
  cases o with
  | some revBefore =>
      obtain ⟨hu, hslash⟩ := splitFirst_eq_some '/' u.reverse revAfter revBefore h1
      have hu2 : u = revBefore.reverse ++ '/' :: revAfter.reverse := by
        have := congrArg List.reverse hu
        simpa using this
      have hseg : '/' ∉ revAfter.reverse := by simpa using hslash
      have hsplit := splitParams_append_slash revBefore.reverse revAfter.reverse hseg
      rw [← hu2] at hsplit
      rcases h2 : splitFirst ';' revAfter.reverse with ⟨bs, o2⟩
      cases o2 with
      | none =>
          rw [h2] at hsplit
          dsimp only at hsplit
          simp [hsplit]
      | some ps =>
          obtain ⟨hseg2, hbs⟩ := splitFirst_eq_some ';' revAfter.reverse bs ps h2
          have hbs_slash : '/' ∉ bs := by
            intro hm
            exact hseg (by rw [hseg2]; exact List.mem_append_left _ hm)
          have hps_slash : '/' ∉ ps := by
            intro hm
            exact hseg (by rw [hseg2]; simp [hm])
          rw [h2] at hsplit
          dsimp only at hsplit
          by_cases hps : ps = []
          · subst hps
            have hstep := splitParams_append_slash revBefore.reverse bs hbs_slash
            rw [splitFirst_no_sep ';' bs hbs] at hstep
            dsimp only at hstep
            simp [hsplit, hstep]
          · have hb2 : '/' ∉ bs ++ ';' :: ps := by
              intro hm
              rcases List.mem_append.mp hm with hm | hm
              · exact hbs_slash hm
              · rcases List.mem_cons.mp hm with hm | hm
                · exact absurd hm.symm (by decide)
                · exact hps_slash hm
            have hstep := splitParams_append_slash revBefore.reverse (bs ++ ';' :: ps) hb2
            rw [splitFirst_append_sep ';' bs ps hbs] at hstep
            dsimp only at hstep
            have heq : revBefore.reverse ++ '/' :: bs ++ ';' :: ps
                = revBefore.reverse ++ '/' :: (bs ++ ';' :: ps) := by simp
            simp only [hsplit, if_neg hps, heq, hstep]
  | none =>
      obtain ⟨hu, hslash⟩ := splitFirst_eq_none '/' u.reverse revAfter h1
      have hus : '/' ∉ u := by
        intro hm
        exact hslash (by rw [← hu]; simpa using hm)
      have hsplit := splitParams_no_slash u hus
      rcases h2 : splitFirst ';' u with ⟨bs, o2⟩
      cases o2 with
      | none =>
          rw [h2] at hsplit
          dsimp only at hsplit
          simp [hsplit]
      | some ps =>
          obtain ⟨hu3, hbs⟩ := splitFirst_eq_some ';' u bs ps h2
          have hbs_slash : '/' ∉ bs := fun hm =>
            hus (by rw [hu3]; exact List.mem_append_left _ hm)
          have hps_slash : '/' ∉ ps := fun hm => hus (by rw [hu3]; simp [hm])
          rw [h2] at hsplit
          dsimp only at hsplit
          by_cases hps : ps = []
          · subst hps
            have hstep := splitParams_no_slash bs hbs_slash
            rw [splitFirst_no_sep ';' bs hbs] at hstep
            dsimp only at hstep
            simp [hsplit, hstep]
          · have hb2 : '/' ∉ bs ++ ';' :: ps := by
              intro hm
              rcases List.mem_append.mp hm with hm | hm
              · exact hbs_slash hm
              · rcases List.mem_cons.mp hm with hm | hm
                · exact absurd hm.symm (by decide)
                · exact hps_slash hm
            have hstep := splitParams_no_slash (bs ++ ';' :: ps) hb2
            rw [splitFirst_append_sep ';' bs ps hbs] at hstep
            dsimp only at hstep
            simp only [hsplit, if_neg hps, hstep]

/-! ## Claim C7: percent-encoding round trip -/

lemma pyUnquote_cons_ne (c : Char) (rest : Str) (h : c ≠ '%') :
    pyUnquote (c :: rest) = c :: pyUnquote rest := by
  rcases rest with _ | ⟨a, rest⟩
  · simp [pyUnquote, h]
  · rcases rest with _ | ⟨b, rest⟩
    · simp [pyUnquote, h]
    · simp [pyUnquote, h]

lemma pyUnquote_escape (a b : Char) (rest : Str) (ha : isHexDigit a = true)
    (hb : isHexDigit b = true) :
    pyUnquote ('%' :: a :: b :: rest)
      = Char.ofNat (16 * hexVal a + hexVal b) :: pyUnquote rest := by
  simp [pyUnquote, ha, hb]

lemma hexUpper_mod (m : ℕ) : hexUpper m = hexUpper (m % 16) := by
  simp [hexUpper, Nat.mod_mod_of_dvd]

lemma hexUpper_props_lt :
    ∀ m : ℕ, m < 16 →
      isHexDigit (hexUpper m) = true ∧ hexVal (hexUpper m) = m ∧
      hexUpper m ≠ '&' ∧ hexUpper m ≠ '=' ∧ hexUpper m ≠ '#' ∧ hexUpper m ≠ '?' ∧
      hexUpper m ≠ '+' ∧ hexUpper m ≠ '%' ∧ hexUpper m ≠ ';' ∧ hexUpper m ≠ '/' ∧
      hexUpper m ≠ ':' ∧ pyIsSpace (hexUpper m) = false := by decide

lemma hexUpper_props (m : ℕ) :
    isHexDigit (hexUpper m) = true ∧ hexVal (hexUpper m) = m % 16 ∧
    hexUpper m ≠ '&' ∧ hexUpper m ≠ '=' ∧ hexUpper m ≠ '#' ∧ hexUpper m ≠ '?' ∧
    hexUpper m ≠ '+' ∧ hexUpper m ≠ '%' ∧ hexUpper m ≠ ';' ∧ hexUpper m ≠ '/' ∧
    hexUpper m ≠ ':' ∧ pyIsSpace (hexUpper m) = false := by
  rw [hexUpper_mod]
  exact hexUpper_props_lt (m % 16) (Nat.mod_lt m (by omega))

lemma alwaysSafe_props (c : Char) (h : alwaysSafe c = true) :
    c ≠ '&' ∧ c ≠ '=' ∧ c ≠ '#' ∧ c ≠ '?' ∧ c ≠ '+' ∧ c ≠ '%' ∧ c ≠ ';' ∧ c ≠ '/' ∧
    c ≠ ':' ∧ pyIsSpace c = false := by
  refine ⟨?_, ?_, ?_, ?_, ?_, ?_, ?_, ?_, ?_, ?_⟩
  all_goals first
    | (rintro rfl; exact absurd h (by decide))
    | (by_contra hsp
       rw [Bool.not_eq_false] at hsp
       have hcases : c = ' ' ∨ c = Char.ofNat 9 ∨ c = Char.ofNat 10 ∨ c = Char.ofNat 13 ∨
           c = Char.ofNat 11 ∨ c = Char.ofNat 12 := by
         simpa [pyIsSpace, Bool.or_eq_true, decide_eq_true_eq, or_assoc] using hsp
       rcases hcases with rfl | rfl | rfl | rfl | rfl | rfl <;> exact absurd h (by decide))

/-- Every character emitted by `pyQuoteChar` avoids the structural
delimiters of query strings and URLs, and is not whitespace. -/
lemma pyQuoteChar_mem (c x : Char) (hx : x ∈ pyQuoteChar c) :
    x ≠ '&' ∧ x ≠ '=' ∧ x ≠ '#' ∧ x ≠ '?' ∧ pyIsSpace x = false := by
  simp only [pyQuoteChar] at hx
  split at hx
  · rename_i hsafe
    rcases List.mem_singleton.mp hx with rfl
    obtain ⟨h1, h2, h3, h4, -, -, -, -, -, h10⟩ := alwaysSafe_props x hsafe
    exact ⟨h1, h2, h3, h4, h10⟩
  · split at hx
    · rcases List.mem_singleton.mp hx with rfl
      exact ⟨by decide, by decide, by decide, by decide, by decide⟩
    · rcases List.mem_cons.mp hx with rfl | hx
      · exact ⟨by decide, by decide, by decide, by decide, by decide⟩
      · rcases List.mem_cons.mp hx with rfl | hx
        · obtain ⟨-, -, h3, h4, h5, h6, -, -, -, -, -, h12⟩ := hexUpper_props (c.toNat / 16)
          exact ⟨h3, h4, h5, h6, h12⟩
        · rcases List.mem_cons.mp hx with rfl | hx
          · obtain ⟨-, -, h3, h4, h5, h6, -, -, -, -, -, h12⟩ := hexUpper_props c.toNat
            exact ⟨h3, h4, h5, h6, h12⟩
          · simp at hx

lemma pyQuotePlus_cons (c : Char) (t : Str) :
    pyQuotePlus (c :: t) = pyQuoteChar c ++ pyQuotePlus t := rfl

lemma pyQuotePlus_mem (s : Str) (x : Char) (hx : x ∈ pyQuotePlus s) :
    x ≠ '&' ∧ x ≠ '=' ∧ x ≠ '#' ∧ x ≠ '?' ∧ pyIsSpace x = false := by
  induction s with
  | nil => simp [pyQuotePlus] at hx
  | cons c t ih =>
      rw [pyQuotePlus_cons] at hx
      rcases List.mem_append.mp hx with hx | hx
      · exact pyQuoteChar_mem c x hx
      · exact ih hx

/-- `unquote_plus` inverts `quote_plus` on single-byte characters. -/
lemma pyUnquotePlus_pyQuotePlus (s : Str) (h : ∀ c ∈ s, c.toNat < 256) :
    pyUnquotePlus (pyQuotePlus s) = s := by
  simp only [pyUnquotePlus]
  induction s with
  | nil => rfl
  | cons c t ih =>
      rw [pyQuotePlus_cons, List.map_append]
      have hc : c.toNat < 256 := h c (by simp)
      have iht := ih (fun x hx => h x (by simp [hx]))
      simp only [pyQuoteChar]
      by_cases hsafe : alwaysSafe c = true
      · obtain ⟨-, -, -, -, hplus, hpct, -, -, -, -⟩ := alwaysSafe_props c hsafe
        rw [if_pos hsafe]
        have hm : List.map (fun x => if x = '+' then ' ' else x) [c] = [c] := by
          simp [if_neg hplus]
        rw [hm, List.singleton_append, pyUnquote_cons_ne c _ hpct, iht]
      · by_cases hspace : c = ' '
        · subst hspace
          rw [if_neg hsafe, if_pos rfl]
          have hm : List.map (fun x => if x = '+' then ' ' else x) ['+'] = [' '] := by decide
          rw [hm, List.singleton_append, pyUnquote_cons_ne ' ' _ (by decide), iht]
        · obtain ⟨hhex1, hval1, -, -, -, -, hp1, -, -, -, -, -⟩ := hexUpper_props (c.toNat / 16)
          obtain ⟨hhex2, hval2, -, -, -, -, hp2, -, -, -, -, -⟩ := hexUpper_props c.toNat
          rw [if_neg hsafe, if_neg hspace]
          have hm : List.map (fun x => if x = '+' then ' ' else x)
              ['%', hexUpper (c.toNat / 16), hexUpper c.toNat]
                = ['%', hexUpper (c.toNat / 16), hexUpper c.toNat] := by
            simp [if_neg hp1, if_neg hp2]
          rw [hm]
          simp only [List.cons_append, List.nil_append]
          rw [pyUnquote_escape _ _ _ hhex1 hhex2, iht, hval1, hval2]
          have hdiv : c.toNat / 16 % 16 = c.toNat / 16 := Nat.mod_eq_of_lt (by omega)
          have hsum : 16 * (c.toNat / 16 % 16) + c.toNat % 16 = c.toNat := by
            rw [hdiv]
            omega
          rw [hsum, Char.ofNat_toNat]

lemma char_toNat_ofNat_small (n : ℕ) (h : n < 256) : (Char.ofNat n).toNat = n := by
  have hv : n.isValidChar := Or.inl (by omega)
  simp [Char.ofNat, Char.toNat, dif_pos hv, UInt32.toNat, Char.ofNatAux, UInt32.ofNat']

lemma uint32_le_toNat {a b : UInt32} (h : a ≤ b) : a.toNat ≤ b.toNat := by
  rw [UInt32.le_def, BitVec.le_def] at h
  simpa using h

lemma hexVal_lt (c : Char) (h : isHexDigit c = true) : hexVal c < 16 := by
  simp only [hexVal]
  by_cases hd : c.isDigit = true
  · rw [if_pos hd]
    simp only [Char.isDigit, Bool.and_eq_true, decide_eq_true_eq] at hd
    have h3 : c.val.toNat ≤ 57 := uint32_le_toNat hd.2
    simp only [Char.toNat]
    omega
  · rw [if_neg hd]
    by_cases hA : ('A' ≤ c && c ≤ 'F') = true
    · rw [if_pos hA]
      simp only [Bool.and_eq_true, decide_eq_true_eq, Char.le_def] at hA
      have h3 : c.val.toNat ≤ 'F'.val.toNat := uint32_le_toNat hA.2
      have h5 : ('F'.val.toNat : ℕ) = 70 := by decide
      simp only [Char.toNat]
      omega
    · rw [if_neg hA]
      simp only [isHexDigit, Bool.or_eq_true] at h
      rcases h with (h | h) | h
      · exact absurd h hd
      · exact absurd h hA
      · simp only [Bool.and_eq_true, decide_eq_true_eq, Char.le_def] at h
        have h3 : c.val.toNat ≤ 'f'.val.toNat := uint32_le_toNat h.2
        have h4 : 'a'.val.toNat ≤ c.val.toNat := uint32_le_toNat h.1
        have h5 : ('f'.val.toNat : ℕ) = 102 := by decide
        have h6 : ('a'.val.toNat : ℕ) = 97 := by decide
        simp only [Char.toNat]
        omega

lemma pyUnquote_single (a : Char) : pyUnquote [a] = [a] := by
  by_cases h : a = '%'
  · subst h
    decide
  · rw [pyUnquote_cons_ne a [] h]
    rfl

/-- `pyUnquote` output stays within single-byte characters. -/
lemma pyUnquote_chars : ∀ (n : ℕ) (s : Str), s.length ≤ n →
    (∀ c ∈ s, c.toNat < 256) → ∀ x ∈ pyUnquote s, x.toNat < 256 := by
  intro n
  induction n with
  | zero =>
      intro s hs h x hx
      rcases s with _ | ⟨c, t⟩
      · simp [pyUnquote] at hx
      · simp at hs
  | succ n ih =>
      intro s hs h x hx
      rcases s with _ | ⟨c, t⟩
      · simp [pyUnquote] at hx
      · by_cases hc : c = '%'
        · subst hc
          rcases t with _ | ⟨a, t⟩
          · have : pyUnquote ['%'] = ['%'] := by decide
            rw [this] at hx
            rcases List.mem_singleton.mp hx with rfl
            decide
          · rcases t with _ | ⟨b, t⟩
            · have : pyUnquote ['%', a] = '%' :: pyUnquote [a] := by simp [pyUnquote]
              rw [this, pyUnquote_single] at hx
              rcases List.mem_cons.mp hx with rfl | hx
              · decide
              · rcases List.mem_singleton.mp hx with rfl
                exact h x (by simp)
            · by_cases hhex : (isHexDigit a && isHexDigit b) = true
              · rw [Bool.and_eq_true] at hhex
                rw [pyUnquote_escape a b t hhex.1 hhex.2] at hx
                rcases List.mem_cons.mp hx with rfl | hx
                · have ha := hexVal_lt a hhex.1
                  have hb := hexVal_lt b hhex.2
                  rw [char_toNat_ofNat_small _ (by omega)]
                  omega
                · exact ih t (by simp at hs; omega) (fun y hy => h y (by simp [hy])) x hx
              · have : pyUnquote ('%' :: a :: b :: t) = '%' :: pyUnquote (a :: b :: t) := by
                  simp [pyUnquote, hhex]
                rw [this] at hx
                rcases List.mem_cons.mp hx with rfl | hx
                · decide
                · exact ih (a :: b :: t) (by simp at hs ⊢; omega)
                    (fun y hy => h y (by simp at hy ⊢; tauto)) x hx
        · rw [pyUnquote_cons_ne c t hc] at hx
          rcases List.mem_cons.mp hx with rfl | hx
          · exact h x (by simp)
          · exact ih t (by simp at hs; omega) (fun y hy => h y (by simp [hy])) x hx

lemma pyUnquotePlus_chars (s : Str) (h : ∀ c ∈ s, c.toNat < 256) :
    ∀ x ∈ pyUnquotePlus s, x.toNat < 256 := by
  simp only [pyUnquotePlus]
  apply pyUnquote_chars (s.map (fun c => if c = '+' then ' ' else c)).length _ le_rfl
  intro c hc
  rcases List.mem_map.mp hc with ⟨y, hy, rfl⟩
  by_cases hp : y = '+'
  · simp [hp]
  · simpa [hp] using h y hy

/-! ## Claim C7: parse_qsl of urlencode -/

lemma pySplitAll_append_sep (sep : Char) :
    ∀ (a b : Str), sep ∉ a → pySplitAll sep (a ++ sep :: b) = a :: pySplitAll sep b := by
  intro a
  induction a with
  | nil => intro b _; simp [pySplitAll]
  | cons c t ih =>
      intro b hmem
      have hc : c ≠ sep := fun h => hmem (by simp [h])
      simp [pySplitAll, hc, ih b (fun h => hmem (List.mem_cons_of_mem _ h))]

lemma pySplitAll_no_sep (sep : Char) :
    ∀ (a : Str), sep ∉ a → pySplitAll sep a = [a] := by
  intro a
  induction a with
  | nil => intro _; rfl
  | cons c t ih =>
      intro hmem
      have hc : c ≠ sep := fun h => hmem (by simp [h])
      simp [pySplitAll, hc, ih (fun h => hmem (List.mem_cons_of_mem _ h))]

lemma joinAmp_cons (f : Str) (fs : List Str) (h : fs ≠ []) :
    joinAmp (f :: fs) = f ++ '&' :: joinAmp fs := by
  cases fs with
  | nil => exact absurd rfl h
  | cons g gs => rfl

lemma encField_ne_nil (kv : Str × Str) : encField kv ≠ [] := by
  simp only [encField]
  intro h
  have := congrArg (fun l => '=' ∈ l) h
  simp at this

lemma encField_no_amp (kv : Str × Str) : '&' ∉ encField kv := by
  intro hm
  simp only [encField] at hm
  rcases List.mem_append.mp hm with hm | hm
  · exact (pyQuotePlus_mem _ _ hm).1 rfl
  · rcases List.mem_cons.mp hm with hm | hm
    · exact absurd hm.symm (by decide)
    · exact (pyQuotePlus_mem _ _ hm).1 rfl

lemma parse_qsl_field (kv : Str × Str)
    (hk : ∀ c ∈ kv.1, c.toNat < 256) (hv : ∀ c ∈ kv.2, c.toNat < 256) :
    (match splitFirst '=' (encField kv) with
      | (name, some value) => (pyUnquotePlus name, pyUnquotePlus value)
      | (name, none) => (pyUnquotePlus name, [])) = kv := by
  have hkeq : '=' ∉ pyQuotePlus kv.1 := fun hm => (pyQuotePlus_mem _ _ hm).2.1 rfl
  rw [encField, splitFirst_append_sep '=' _ _ hkeq]
  dsimp only
  rw [pyUnquotePlus_pyQuotePlus kv.1 hk, pyUnquotePlus_pyQuotePlus kv.2 hv]

/-- `parse_qsl` inverts `urlencode` on dicts of single-byte strings. -/
lemma parse_qsl_urlencode (d : List (Str × Str))
    (h : ∀ kv ∈ d, (∀ c ∈ kv.1, c.toNat < 256) ∧ (∀ c ∈ kv.2, c.toNat < 256)) :
    parse_qsl (urlencode d) = d := by
  induction d with
  | nil => rfl
  | cons kv rest ih =>
      have hpos : (fun f => decide (f ≠ [])) (encField kv) = true := by
        simpa using encField_ne_nil kv
      have hf := parse_qsl_field kv (h kv (by simp)).1 (h kv (by simp)).2
      cases rest with
      | nil =>
          have h1 : urlencode [kv] = encField kv := rfl
          have hfil : List.filter (fun f => decide (f ≠ [])) [encField kv]
              = [encField kv] := by simp [encField_ne_nil kv]
          rw [h1, parse_qsl, pySplitAll_no_sep '&' _ (encField_no_amp kv), hfil,
            List.map_cons, List.map_nil]
          rw [hf]
      | cons kv2 rest2 =>
          have h1 : urlencode (kv :: kv2 :: rest2)
              = encField kv ++ '&' :: urlencode (kv2 :: rest2) := by
            rw [urlencode, List.map_cons, joinAmp_cons _ _ (by simp)]
            rfl
          have hfil : List.filter (fun f => decide (f ≠ []))
              (encField kv :: pySplitAll '&' (urlencode (kv2 :: rest2)))
              = encField kv :: List.filter (fun f => decide (f ≠ []))
                  (pySplitAll '&' (urlencode (kv2 :: rest2))) := by
            simp [encField_ne_nil kv]
          rw [h1, parse_qsl, pySplitAll_append_sep '&' _ _ (encField_no_amp kv), hfil,
            List.map_cons]
          have h2 : ((pySplitAll '&' (urlencode (kv2 :: rest2))).filter
              (fun f => decide (f ≠ []))).map (fun field =>
                match splitFirst '=' field with
                | (name, some value) => (pyUnquotePlus name, pyUnquotePlus value)
                | (name, none) => (pyUnquotePlus name, []))
              = parse_qsl (urlencode (kv2 :: rest2)) := rfl
          rw [h2, ih (fun kv hkv => h kv (by simp [hkv]))]
          rw [hf]

/-! ## Claim C7: ordered-dict lemmas -/

lemma qlookup_pyDictInsert_self (k v : Str) :
    ∀ d : List (Str × Str), qlookup k (pyDictInsert d k v) = some v := by
  intro d
  induction d with
  | nil => simp [pyDictInsert, qlookup]
  | cons kv t ih =>
      rcases kv with ⟨k0, v0⟩
      by_cases hk : k0 = k
      · simp [pyDictInsert, hk, qlookup]
      · simp [pyDictInsert, hk, qlookup, ih]

lemma qlookup_pyDictInsert_other (k v k2 : Str) (hne : k2 ≠ k) :
    ∀ d : List (Str × Str), qlookup k2 (pyDictInsert d k v) = qlookup k2 d := by
  have hne2 : k ≠ k2 := Ne.symm hne
  intro d
  induction d with
  | nil => simp [pyDictInsert, qlookup, hne2]
  | cons kv t ih =>
      rcases kv with ⟨k0, v0⟩
      by_cases hk : k0 = k
      · subst hk
        simp [pyDictInsert, qlookup, hne2]
      · simp [pyDictInsert, hk, qlookup, ih]

lemma mem_pyDictInsert (k v : Str) :
    ∀ (d : List (Str × Str)) (p : Str × Str), p ∈ pyDictInsert d k v → p ∈ d ∨ p = (k, v) := by
  intro d
  induction d with
  | nil => intro p hp; simp [pyDictInsert] at hp; exact Or.inr hp
  | cons kv t ih =>
      intro p hp
      rcases kv with ⟨k0, v0⟩
      by_cases hk : k0 = k
      · simp only [pyDictInsert, if_pos hk] at hp
        rcases List.mem_cons.mp hp with rfl | hp
        · exact Or.inr (by rw [hk])
        · exact Or.inl (List.mem_cons_of_mem _ hp)
      · simp only [pyDictInsert, if_neg hk] at hp
        rcases List.mem_cons.mp hp with rfl | hp
        · exact Or.inl (by simp)
        · rcases ih p hp with hp | hp
          · exact Or.inl (List.mem_cons_of_mem _ hp)
          · exact Or.inr hp

lemma mem_pyDict_aux :
    ∀ (l acc : List (Str × Str)) (p : Str × Str),
      p ∈ l.foldl (fun d kv => pyDictInsert d kv.1 kv.2) acc → p ∈ acc ∨ p ∈ l := by
  intro l
  induction l with
  | nil => intro acc p hp; exact Or.inl hp
  | cons kv t ih =>
      intro acc p hp
      rcases ih (pyDictInsert acc kv.1 kv.2) p hp with hp | hp
      · rcases mem_pyDictInsert kv.1 kv.2 acc p hp with hp | hp
        · exact Or.inl hp
        · exact Or.inr (by simp [hp])
      · exact Or.inr (List.mem_cons_of_mem _ hp)

lemma mem_pyDict (l : List (Str × Str)) (p : Str × Str) (hp : p ∈ pyDict l) : p ∈ l := by
  rcases mem_pyDict_aux l [] p hp with hp | hp
  · simp at hp
  · exact hp

lemma pyDictInsert_of_qlookup (k v : Str) :
    ∀ d : List (Str × Str), qlookup k d = some v → pyDictInsert d k v = d := by
  intro d
  induction d with
  | nil => intro h; simp [qlookup] at h
  | cons kv t ih =>
      rcases kv with ⟨k0, v0⟩
      intro h
      by_cases hk : k0 = k
      · simp only [qlookup, if_pos hk] at h
        cases h
        simp [pyDictInsert, hk]
      · simp only [qlookup, if_neg hk] at h
        simp [pyDictInsert, hk, ih h]

lemma keys_pyDictInsert (k v : Str) :
    ∀ d : List (Str × Str),
      (pyDictInsert d k v).map Prod.fst
        = if k ∈ d.map Prod.fst then d.map Prod.fst else d.map Prod.fst ++ [k] := by
  intro d
  induction d with
  | nil => simp [pyDictInsert]
  | cons kv t ih =>
      rcases kv with ⟨k0, v0⟩
      by_cases hk : k0 = k
      · simp [pyDictInsert, hk]
      · simp only [pyDictInsert, if_neg hk, List.map_cons, ih]
        by_cases hmem : k ∈ t.map Prod.fst
        · simp [hmem, hk, Ne.symm hk]
        · simp [hmem, hk, Ne.symm hk]

lemma nodup_keys_pyDictInsert (k v : Str) (d : List (Str × Str))
    (h : (d.map Prod.fst).Nodup) : ((pyDictInsert d k v).map Prod.fst).Nodup := by
  rw [keys_pyDictInsert]
  by_cases hmem : k ∈ d.map Prod.fst
  · simpa [hmem] using h
  · simp only [hmem, if_false]
    simpa [List.nodup_append, hmem] using h

lemma nodup_keys_pyDict_aux :
    ∀ (l acc : List (Str × Str)), ((acc.map Prod.fst).Nodup) →
      (((l.foldl (fun d kv => pyDictInsert d kv.1 kv.2) acc).map Prod.fst).Nodup) := by
  intro l
  induction l with
  | nil => intro acc h; exact h
  | cons kv t ih =>
      intro acc h
      exact ih (pyDictInsert acc kv.1 kv.2) (nodup_keys_pyDictInsert kv.1 kv.2 acc h)

lemma nodup_keys_pyDict (l : List (Str × Str)) : ((pyDict l).map Prod.fst).Nodup :=
  nodup_keys_pyDict_aux l [] (by simp)

lemma pyDictInsert_fresh (k v : Str) :
    ∀ d : List (Str × Str), k ∉ d.map Prod.fst → pyDictInsert d k v = d ++ [(k, v)] := by
  intro d
  induction d with
  | nil => intro _; rfl
  | cons kv t ih =>
      rcases kv with ⟨k0, v0⟩
      intro h
      have hk : k0 ≠ k := by
        intro hk
        exact h (by simp [hk])
      simp [pyDictInsert, hk, ih (fun hm => h (by simp [hm]))]

lemma pyDict_eq_self_aux :
    ∀ (l acc : List (Str × Str)),
      ((acc ++ l).map Prod.fst).Nodup →
      l.foldl (fun d kv => pyDictInsert d kv.1 kv.2) acc = acc ++ l := by
  intro l
  induction l with
  | nil => intro acc _; simp
  | cons kv t ih =>
      intro acc h
      have hfresh : kv.1 ∉ acc.map Prod.fst := by
        intro hm
        rw [List.map_append] at h
        rcases (List.nodup_append.mp h) with ⟨-, -, hdisj⟩
        exact hdisj hm (by simp)
      rw [List.foldl_cons, pyDictInsert_fresh kv.1 kv.2 acc hfresh]
      have := ih (acc ++ [(kv.1, kv.2)]) (by simpa using h)
      simpa using this

lemma pyDict_eq_self (l : List (Str × Str)) (h : (l.map Prod.fst).Nodup) : pyDict l = l := by
  have := pyDict_eq_self_aux l [] (by simpa using h)
  simpa using this

/-! ## Claim C7: character cleanliness propagation -/

lemma pySplitAll_chars (sep : Char) :
    ∀ (qs f : Str), f ∈ pySplitAll sep qs → ∀ c ∈ f, c ∈ qs := by
  intro qs
  induction qs with
  | nil =>
      intro f hf c hc
      simp only [pySplitAll, List.mem_singleton] at hf
      subst hf
      simp at hc
  | cons x t ih =>
      intro f hf c hc
      simp only [pySplitAll] at hf
      by_cases hx : x = sep
      · rw [if_pos hx] at hf
        rcases List.mem_cons.mp hf with rfl | hf
        · simp at hc
        · exact List.mem_cons_of_mem _ (ih f hf c hc)
      · rw [if_neg hx] at hf
        cases hsp : pySplitAll sep t with
        | nil =>
            rw [hsp] at hf
            rcases List.mem_singleton.mp hf with rfl
            rcases List.mem_singleton.mp hc with rfl
            simp
        | cons hhead hrest =>
            rw [hsp] at hf
            rcases List.mem_cons.mp hf with rfl | hf
            · rcases List.mem_cons.mp hc with rfl | hc
              · simp
              · have hm : hhead ∈ pySplitAll sep t := by rw [hsp]; simp
                exact List.mem_cons_of_mem _ (ih hhead hm c hc)
            · have hm : f ∈ pySplitAll sep t := by rw [hsp]; simp [hf]
              exact List.mem_cons_of_mem _ (ih f hm c hc)

lemma parse_qsl_chars (qs : Str) (h : ∀ c ∈ qs, c.toNat < 256) :
    ∀ kv ∈ parse_qsl qs, (∀ c ∈ kv.1, c.toNat < 256) ∧ (∀ c ∈ kv.2, c.toNat < 256) := by
  intro kv hkv
  simp only [parse_qsl, List.mem_map, List.mem_filter] at hkv
  obtain ⟨field, ⟨hfield, -⟩, hkv⟩ := hkv
  have hfc : ∀ c ∈ field, c.toNat < 256 :=
    fun c hc => h c (pySplitAll_chars '&' qs field hfield c hc)
  rcases hsp : splitFirst '=' field with ⟨name, o⟩
  cases o with
  | some value =>
      obtain ⟨hfe, -⟩ := splitFirst_eq_some '=' field name value hsp
      rw [hsp] at hkv
      subst hkv
      constructor
      · exact pyUnquotePlus_chars name
          (fun c hc => hfc c (by rw [hfe]; exact List.mem_append_left _ hc))
      · exact pyUnquotePlus_chars value
          (fun c hc => hfc c (by rw [hfe]; simp [hc]))
  | none =>
      obtain ⟨hfe, -⟩ := splitFirst_eq_none '=' field name hsp
      rw [hsp] at hkv
      subst hkv
      refine ⟨pyUnquotePlus_chars name (fun c hc => hfc c (by rw [hfe]; exact hc)), ?_⟩
      simp

/-! ## Claim C7: URL parse/unparse structure -/

lemma prefix_le_of_not_mem {pat A tail : Str} {x : Char}
    (hpat : pat <+: (A ++ x :: tail)) (hx : x ∉ pat) : pat.length ≤ A.length := by
  by_contra hlen
  push_neg at hlen
  have h1 : pat = (A ++ x :: tail).take pat.length := List.prefix_iff_eq_take.mp hpat
  rw [List.take_append_eq_append_take] at h1
  have h2 : x ∈ (x :: tail).take (pat.length - A.length) := by
    have : 1 ≤ pat.length - A.length := by omega
    cases hn : pat.length - A.length with
    | zero => omega
    | succ n => simp [List.take_succ_cons]
  exact hx (by rw [h1]; exact List.mem_append_right _ h2)

lemma dropWhile_append_stop (p : Char → Bool) :
    ∀ (B : Str) (x : Char) (tail : Str), p x = false →
      ∃ B2, (B ++ x :: tail).dropWhile p = B2 ++ x :: tail ∧ ∀ c ∈ B2, c ∈ B := by
  intro B
  induction B with
  | nil =>
      intro x tail hx
      exact ⟨[], by simp [List.dropWhile, hx], by simp⟩
  | cons c t ih =>
      intro x tail hx
      by_cases hc : p c = true
      · obtain ⟨B2, hB2, hmem⟩ := ih x tail hx
        exact ⟨B2, by simp [List.dropWhile, hc, hB2],
          fun y hy => List.mem_cons_of_mem _ (hmem y hy)⟩
      · rw [Bool.not_eq_true] at hc
        refine ⟨c :: t, by simp [List.dropWhile, hc], fun y hy => hy⟩

lemma takeWhile_append_all (p : Char → Bool) (a b : Str)
    (ha : ∀ c ∈ a, p c = true)
    (hb : b = [] ∨ ∃ x t, b = x :: t ∧ p x = false) :
    (a ++ b).takeWhile p = a ∧ (a ++ b).dropWhile p = b := by
  induction a with
  | nil =>
      rcases hb with rfl | ⟨x, t, rfl, hx⟩
      · simp
      · simp [List.takeWhile, List.dropWhile, hx]
  | cons c t ih =>
      have hc : p c = true := ha c (by simp)
      obtain ⟨h1, h2⟩ := ih (fun y hy => ha y (by simp [hy]))
      exact ⟨by simp [List.takeWhile, hc, h1], by simp [List.dropWhile, hc, h2]⟩

/-- The `path[;params]` plus authority body that `urlunsplit` assembles. -/
def unparseBody (p : UrlParts) : Str :=
  let url := if p.params ≠ [] then p.path ++ ';' :: p.params else p.path
  if p.netloc ≠ [] ||
      (p.scheme ≠ [] && usesNetloc p.scheme && !(url.take 2 = "//".data : Bool)) then
    '/' :: '/' :: p.netloc ++
      (if url ≠ [] && !(url.take 1 = ['/'] : Bool) then '/' :: url else url)
  else url

lemma urlunparse_shape (p : UrlParts)
    (hsch : p.scheme = "http".data ∨ p.scheme = "https".data) :
    urlunparse p = p.scheme ++ ':' :: unparseBody p
        ++ (if p.query = [] then [] else '?' :: p.query)
        ++ (if p.fragment = [] then [] else '#' :: p.fragment) ∧
      (unparseBody p).take 2 = "//".data := by
  have hne : p.scheme ≠ [] := by rcases hsch with h | h <;> simp [h]
  have huses : usesNetloc p.scheme = true := by
    rcases hsch with h | h <;> simp [usesNetloc, h]
  constructor
  · simp only [urlunparse, unparseBody, ne_eq, ite_not]
    by_cases hq : p.query = [] <;> by_cases hf : p.fragment = [] <;>
      simp [hne, hq, hf, List.append_assoc]
  · simp only [unparseBody]
    by_cases hnet : p.netloc = []
    · by_cases hslash :
          (if p.params ≠ [] then p.path ++ ';' :: p.params else p.path).take 2 = "//".data
      · simp only [ne_eq, ite_not] at hslash
        simp [hnet, hslash, hne, huses]
      · simp only [ne_eq, ite_not] at hslash
        simp [hnet, hslash, hne, huses]
    · simp [hnet]

lemma urlparse_components (sch t : Str) (hsch : sch = "http".data ∨ sch = "https".data) :
    urlparse (sch ++ ':' :: '/' :: '/' :: t) =
      ⟨sch, t.takeWhile (fun c => !netlocDelim c),
        (splitParams (splitFirst '?'
          (splitFirst '#' (t.dropWhile (fun c => !netlocDelim c))).1).1).1,
        (splitParams (splitFirst '?'
          (splitFirst '#' (t.dropWhile (fun c => !netlocDelim c))).1).1).2,
        (splitFirst '?' (splitFirst '#' (t.dropWhile (fun c => !netlocDelim c))).1).2.getD [],
        (splitFirst '#' (t.dropWhile (fun c => !netlocDelim c))).2.getD []⟩ := by
  rcases hsch with rfl | rfl
  · have he : ("http".data ++ ':' :: '/' :: '/' :: t)
        = 'h' :: 't' :: 't' :: 'p' :: ':' :: '/' :: '/' :: t := rfl
    rw [he]
    have hpre1 : ("https://".data).isPrefixOf
        ('h' :: 't' :: 't' :: 'p' :: ':' :: '/' :: '/' :: t) = false := by
      simp [List.isPrefixOf]
    have hpre2 : ("http://".data).isPrefixOf
        ('h' :: 't' :: 't' :: 'p' :: ':' :: '/' :: '/' :: t) = true := by
      simp [List.isPrefixOf]
    simp only [urlparse, hpre1, hpre2, Bool.false_eq_true, if_false, if_true]
    rfl
  · have he : ("https".data ++ ':' :: '/' :: '/' :: t)
        = 'h' :: 't' :: 't' :: 'p' :: 's' :: ':' :: '/' :: '/' :: t := rfl
    rw [he]
    have hpre1 : ("https://".data).isPrefixOf
        ('h' :: 't' :: 't' :: 'p' :: 's' :: ':' :: '/' :: '/' :: t) = true := by
      simp [List.isPrefixOf]
    simp only [urlparse, hpre1, if_true]
    rfl

lemma matchUrlAt_self (url : Str) (h : matchUrlAt url = some url) :
    ∃ t, (url = "http://".data ++ t ∨ url = "https://".data ++ t) ∧
      (∀ c ∈ t, pyIsSpace c = false) ∧ t ≠ [] := by
  simp only [matchUrlAt] at h
  by_cases h8 : ("https://".data).isPrefixOf url = true
  · rw [if_pos h8] at h
    set run := (url.drop 8).takeWhile (fun c => !pyIsSpace c) with hrun
    by_cases hr : run = []
    · rw [if_pos hr] at h
      simp at h
    · rw [if_neg hr] at h
      refine ⟨run, Or.inr ?_, ?_, hr⟩
      · exact (Option.some_inj.mp h).symm
      · intro c hc
        have := List.mem_takeWhile_imp (hrun ▸ hc)
        simpa using this
  · rw [if_neg h8] at h
    by_cases h7 : ("http://".data).isPrefixOf url = true
    · rw [if_pos h7] at h
      set run := (url.drop 7).takeWhile (fun c => !pyIsSpace c) with hrun
      by_cases hr : run = []
      · rw [if_pos hr] at h
        simp at h
      · rw [if_neg hr] at h
        refine ⟨run, Or.inl ?_, ?_, hr⟩
        · exact (Option.some_inj.mp h).symm
        · intro c hc
          have := List.mem_takeWhile_imp (hrun ▸ hc)
          simpa using this
    · rw [if_neg h7] at h
      simp at h

lemma splitFirst_fst_subset (sep : Char) (s : Str) : ∀ c ∈ (splitFirst sep s).1, c ∈ s := by
  rcases h : splitFirst sep s with ⟨a, o⟩
  cases o with
  | none =>
      obtain ⟨rfl, -⟩ := splitFirst_eq_none sep s a h
      intro c hc
      exact hc
  | some b =>
      obtain ⟨hs, -⟩ := splitFirst_eq_some sep s a b h
      intro c hc
      rw [hs]
      exact List.mem_append_left _ hc

lemma splitFirst_snd_subset (sep : Char) (s : Str) :
    ∀ c ∈ (splitFirst sep s).2.getD [], c ∈ s := by
  rcases h : splitFirst sep s with ⟨a, o⟩
  cases o with
  | none => intro c hc; simp at hc
  | some b =>
      obtain ⟨hs, -⟩ := splitFirst_eq_some sep s a b h
      intro c hc
      rw [hs]
      simp only [Option.getD_some] at hc
      simp [hc]

lemma splitParams_fst_subset (u : Str) : ∀ c ∈ (splitParams u).1, c ∈ u := by
  rcases h1 : splitFirst '/' u.reverse with ⟨revAfter, o⟩
  cases o with
  | some revBefore =>
      obtain ⟨hu, -⟩ := splitFirst_eq_some '/' u.reverse revAfter revBefore h1
      have hu2 : u = revBefore.reverse ++ '/' :: revAfter.reverse := by
        have := congrArg List.reverse hu
        simpa using this
      rcases h2 : splitFirst ';' revAfter.reverse with ⟨bs, o2⟩
      cases o2 with
      | none =>
          simp only [splitParams, h1, h2]
          intro c hc
          exact hc
      | some ps =>
          obtain ⟨hseg, -⟩ := splitFirst_eq_some ';' revAfter.reverse bs ps h2
          simp only [splitParams, h1, h2]
          intro c hc
          rw [hu2, hseg]
          rcases List.mem_append.mp hc with hc | hc
          · exact List.mem_append_left _ hc
          · rcases List.mem_cons.mp hc with rfl | hc
            · simp
            · simp [hc]
  | none =>
      rcases h2 : splitFirst ';' u with ⟨bs, o2⟩
      cases o2 with
      | none =>
          simp only [splitParams, h1, h2]
          intro c hc
          exact hc
      | some ps =>
          obtain ⟨hs, -⟩ := splitFirst_eq_some ';' u bs ps h2
          simp only [splitParams, h1, h2]
          intro c hc
          rw [hs]
          exact List.mem_append_left _ hc

lemma splitParams_snd_subset (u : Str) : ∀ c ∈ (splitParams u).2, c ∈ u := by
  rcases h1 : splitFirst '/' u.reverse with ⟨revAfter, o⟩
  cases o with
  | some revBefore =>
      obtain ⟨hu, -⟩ := splitFirst_eq_some '/' u.reverse revAfter revBefore h1
      have hu2 : u = revBefore.reverse ++ '/' :: revAfter.reverse := by
        have := congrArg List.reverse hu
        simpa using this
      rcases h2 : splitFirst ';' revAfter.reverse with ⟨bs, o2⟩
      cases o2 with
      | none =>
          simp only [splitParams, h1, h2]
          intro c hc
          simp at hc
      | some ps =>
          obtain ⟨hseg, -⟩ := splitFirst_eq_some ';' revAfter.reverse bs ps h2
          simp only [splitParams, h1, h2]
          intro c hc
          rw [hu2, hseg]
          simp [hc]
  | none =>
      rcases h2 : splitFirst ';' u with ⟨bs, o2⟩
      cases o2 with
      | none =>
          simp only [splitParams, h1, h2]
          intro c hc
          simp at hc
      | some ps =>
          obtain ⟨hs, -⟩ := splitFirst_eq_some ';' u bs ps h2
          simp only [splitParams, h1, h2]
          intro c hc
          rw [hs]
          simp [hc]

lemma splitFirst_fst_not_sep (sep : Char) (s : Str) : sep ∉ (splitFirst sep s).1 := by
  rcases h : splitFirst sep s with ⟨a, o⟩
  cases o with
  | none => exact (splitFirst_eq_none sep s a h).2
  | some b => exact (splitFirst_eq_some sep s a b h).2

lemma takeWhile_all (p : Char → Bool) (l : Str) (h : ∀ c ∈ l, p c = true) :
    l.takeWhile p = l := List.takeWhile_eq_self_iff.mpr h

lemma dropWhile_shape (p : Char → Bool) (l : Str) :
    l.dropWhile p = [] ∨ ∃ c t, l.dropWhile p = c :: t ∧ p c = false := by
  induction l with
  | nil => exact Or.inl rfl
  | cons c t ih =>
      by_cases hc : p c = true
      · simpa [List.dropWhile, hc] using ih
      · rw [Bool.not_eq_true] at hc
        exact Or.inr ⟨c, t, by simp [List.dropWhile, hc], hc⟩

lemma pyDictInsert_idem (d : List (Str × Str)) (k v : Str) :
    pyDictInsert (pyDictInsert d k v) k v = pyDictInsert d k v := by
  induction d with
  | nil => simp [pyDictInsert]
  | cons kv rest ih =>
      by_cases hk : kv.1 = k
      · simp [pyDictInsert, hk]
      · simp [pyDictInsert, hk, ih]

lemma https_not_prefix_http (x : Str) :
    ("https://".data).isPrefixOf ('h' :: 't' :: 't' :: 'p' :: ':' :: '/' :: '/' :: x)
      = false := by
  simp [List.isPrefixOf]

lemma matchUrlAt_some_of (sch t S : Str) (hsch : sch = "http".data ∨ sch = "https".data)
    (ht : t ≠ []) (hts : ∀ c ∈ t, pyIsSpace c = false)
    (hS : S = [] ∨ ∃ c r, S = c :: r ∧ pyIsSpace c = true) :
    matchUrlAt (sch ++ ':' :: '/' :: '/' :: t ++ S) = some (sch ++ ':' :: '/' :: '/' :: t) := by
  have htake : (t ++ S).takeWhile (fun c => !pyIsSpace c) = t := by
    refine (takeWhile_append_all _ t S (fun c hc => by simp [hts c hc]) ?_).1
    rcases hS with rfl | ⟨c, r, rfl, hc⟩
    · exact Or.inl rfl
    · exact Or.inr ⟨c, r, rfl, by simp [hc]⟩
  rcases hsch with rfl | rfl
  · have he : ("http".data ++ ':' :: '/' :: '/' :: t ++ S)
        = 'h' :: 't' :: 't' :: 'p' :: ':' :: '/' :: '/' :: (t ++ S) := by simp
    rw [he]
    have hpre2 : ("http://".data).isPrefixOf
        ('h' :: 't' :: 't' :: 'p' :: ':' :: '/' :: '/' :: (t ++ S)) = true := by
      simp [List.isPrefixOf]
    simp only [matchUrlAt, https_not_prefix_http, Bool.false_eq_true, if_false, hpre2, if_true]
    have hdrop : ('h' :: 't' :: 't' :: 'p' :: ':' :: '/' :: '/' :: (t ++ S)).drop 7
        = t ++ S := rfl
    rw [hdrop, htake, if_neg ht]
    simp
  · have he : ("https".data ++ ':' :: '/' :: '/' :: t ++ S)
        = 'h' :: 't' :: 't' :: 'p' :: 's' :: ':' :: '/' :: '/' :: (t ++ S) := by simp
    rw [he]
    have hpre1 : ("https://".data).isPrefixOf
        ('h' :: 't' :: 't' :: 'p' :: 's' :: ':' :: '/' :: '/' :: (t ++ S)) = true := by
      simp [List.isPrefixOf]
    simp only [matchUrlAt, hpre1, if_true]
    have hdrop : ('h' :: 't' :: 't' :: 'p' :: 's' :: ':' :: '/' :: '/' :: (t ++ S)).drop 8
        = t ++ S := rfl
    rw [hdrop, htake, if_neg ht]
    simp

lemma matchUrlAt_some_destruct (s u : Str) (h : matchUrlAt s = some u) :
    ∃ sch t, (sch = "http".data ∨ sch = "https".data) ∧ u = sch ++ ':' :: '/' :: '/' :: t ∧
      t ≠ [] ∧ (∀ c ∈ t, pyIsSpace c = false) ∧
      s = u ++ s.drop u.length ∧
      (s.drop u.length = [] ∨ ∃ c r, s.drop u.length = c :: r ∧ pyIsSpace c = true) := by
  simp only [matchUrlAt] at h
  by_cases h8 : ("https://".data).isPrefixOf s = true
  · rw [if_pos h8] at h
    set run := (s.drop 8).takeWhile (fun c => !pyIsSpace c) with hrun
    by_cases hr : run = []
    · rw [if_pos hr] at h; simp at h
    · rw [if_neg hr] at h
      have hu : u = "https://".data ++ run := (Option.some_inj.mp h).symm
      have hpre : "https://".data <+: s := List.isPrefixOf_iff_prefix.mp h8
      have hs : s = "https://".data ++ s.drop 8 := by
        have h1 : "https://".data = s.take 8 := by
          have := List.prefix_iff_eq_take.mp hpre
          simpa using this
        conv_lhs => rw [← List.take_append_drop 8 s, ← h1]
      have hsplit : s.drop 8 = run ++ (s.drop 8).dropWhile (fun c => !pyIsSpace c) := by
        rw [hrun]; exact (List.takeWhile_append_dropWhile _ _).symm
      have hlen : u.length = 8 + run.length := by simp [hu]; omega
      have hdropu : s.drop u.length = (s.drop 8).dropWhile (fun c => !pyIsSpace c) := by
        conv_lhs => rw [hs, hsplit]
        rw [hlen]
        have hlen2 : 8 + run.length = ("https://".data ++ run).length := by simp; omega
        have he2 : "https://".data ++ (run ++ (s.drop 8).dropWhile (fun c => !pyIsSpace c))
            = ("https://".data ++ run) ++ (s.drop 8).dropWhile (fun c => !pyIsSpace c) := by
          simp [List.append_assoc]
        rw [hlen2, he2, List.drop_left]
      refine ⟨"https".data, run, Or.inr rfl, by simpa using hu, hr, ?_, ?_, ?_⟩
      · intro c hc
        have := List.mem_takeWhile_imp (hrun ▸ hc)
        simpa using this
      · conv_lhs => rw [hs, hsplit]
        rw [hdropu, hu]
        simp [List.append_assoc]
      · rw [hdropu]
        rcases dropWhile_shape (fun c => !pyIsSpace c) (s.drop 8) with hd | ⟨c, r, hd, hc⟩
        · exact Or.inl hd
        · exact Or.inr ⟨c, r, hd, by simpa using hc⟩
  · rw [if_neg h8] at h
    by_cases h7 : ("http://".data).isPrefixOf s = true
    · rw [if_pos h7] at h
      set run := (s.drop 7).takeWhile (fun c => !pyIsSpace c) with hrun
      by_cases hr : run = []
      · rw [if_pos hr] at h; simp at h
      · rw [if_neg hr] at h
        have hu : u = "http://".data ++ run := (Option.some_inj.mp h).symm
        have hpre : "http://".data <+: s := List.isPrefixOf_iff_prefix.mp h7
        have hs : s = "http://".data ++ s.drop 7 := by
          have h1 : "http://".data = s.take 7 := by
            have := List.prefix_iff_eq_take.mp hpre
            simpa using this
          conv_lhs => rw [← List.take_append_drop 7 s, ← h1]
        have hsplit : s.drop 7 = run ++ (s.drop 7).dropWhile (fun c => !pyIsSpace c) := by
          rw [hrun]; exact (List.takeWhile_append_dropWhile _ _).symm
        have hlen : u.length = 7 + run.length := by simp [hu]; omega
        have hdropu : s.drop u.length = (s.drop 7).dropWhile (fun c => !pyIsSpace c) := by
          conv_lhs => rw [hs, hsplit]
          rw [hlen]
          have hlen2 : 7 + run.length = ("http://".data ++ run).length := by simp; omega
          have he2 : "http://".data ++ (run ++ (s.drop 7).dropWhile (fun c => !pyIsSpace c))
              = ("http://".data ++ run) ++ (s.drop 7).dropWhile (fun c => !pyIsSpace c) := by
            simp [List.append_assoc]
          rw [hlen2, he2, List.drop_left]
        refine ⟨"http".data, run, Or.inl rfl, by simpa using hu, hr, ?_, ?_, ?_⟩
        · intro c hc
          have := List.mem_takeWhile_imp (hrun ▸ hc)
          simpa using this
        · conv_lhs => rw [hs, hsplit]
          rw [hdropu, hu]
          simp [List.append_assoc]
        · rw [hdropu]
          rcases dropWhile_shape (fun c => !pyIsSpace c) (s.drop 7) with hd | ⟨c, r, hd, hc⟩
          · exact Or.inl hd
          · exact Or.inr ⟨c, r, hd, by simpa using hc⟩
    · rw [if_neg h7] at h
      simp at h

lemma ffuAux_of : ∀ (text : Str) (i k : ℕ) (u : Str),
    (∀ j, j < k → matchUrlAt (text.drop j) = none) →
    matchUrlAt (text.drop k) = some u →
    ffuAux text i = some (u, i + k, i + k + u.length) := by
  intro text
  induction text with
  | nil =>
      intro i k u _ hk
      rw [List.drop_nil] at hk
      simp [matchUrlAt, List.isPrefixOf] at hk
  | cons c t ih =>
      intro i k u hnone hk
      cases k with
      | zero =>
          rw [List.drop_zero] at hk
          simp [ffuAux, hk]
      | succ k' =>
          have h0 : matchUrlAt (c :: t) = none := by
            have := hnone 0 (Nat.succ_pos k')
            simpa using this
          have ht : ffuAux t (i + 1) = some (u, (i + 1) + k', (i + 1) + k' + u.length) := by
            refine ih (i + 1) k' u ?_ ?_
            · intro j hj
              have := hnone (j + 1) (by omega)
              simpa [List.drop_succ_cons] using this
            · simpa [List.drop_succ_cons] using hk
          have he : (i + 1) + k' = i + (k' + 1) := by omega
          rw [ffuAux, h0, ht, he]

lemma ffuAux_some_facts : ∀ (text : Str) (i : ℕ) (u : Str) (s e : ℕ),
    ffuAux text i = some (u, s, e) →
    i ≤ s ∧ e = s + u.length ∧ matchUrlAt (text.drop (s - i)) = some u ∧
      ∀ j, j < s - i → matchUrlAt (text.drop j) = none := by
  intro text
  induction text with
  | nil => intro i u s e h; simp [ffuAux] at h
  | cons c t ih =>
      intro i u s e h
      rw [ffuAux] at h
      cases hm : matchUrlAt (c :: t) with
      | some u0 =>
          rw [hm] at h
          obtain ⟨rfl, rfl, rfl⟩ : u0 = u ∧ i = s ∧ i + u0.length = e := by
            simpa using h
          refine ⟨le_refl _, by omega, ?_, ?_⟩
          · simpa using hm
          · intro j hj; omega
      | none =>
          rw [hm] at h
          obtain ⟨h1, h2, h3, h4⟩ := ih (i + 1) u s e h
          refine ⟨by omega, h2, ?_, ?_⟩
          · have hsub : s - i = (s - (i + 1)) + 1 := by omega
            rw [hsub, List.drop_succ_cons]
            exact h3
          · intro j hj
            cases j with
            | zero => simpa using hm
            | succ j' =>
                rw [List.drop_succ_cons]
                exact h4 j' (by omega)

lemma isPrefixOf_append_of_le (pat A W : Str) (h : pat.length ≤ A.length) :
    pat.isPrefixOf (A ++ W) = pat.isPrefixOf A := by
  by_cases hp : pat.isPrefixOf A = true
  · rw [hp]
    rw [List.isPrefixOf_iff_prefix] at hp ⊢
    exact hp.trans (List.prefix_append A W)
  · rw [Bool.not_eq_true] at hp
    rw [hp]
    by_contra h2
    rw [Bool.not_eq_false, List.isPrefixOf_iff_prefix] at h2
    have h3 : pat = (A ++ W).take pat.length := List.prefix_iff_eq_take.mp h2
    rw [List.take_append_of_le_length h] at h3
    have h4 : pat <+: A := h3 ▸ List.take_prefix _ A
    rw [← List.isPrefixOf_iff_prefix] at h4
    rw [hp] at h4
    exact Bool.false_ne_true h4

lemma matchUrlAt_none_suffix_indep (A Z Z2 : Str) (hA : 8 ≤ A.length)
    (hZ : ∃ c r, Z = c :: r ∧ pyIsSpace c = false)
    (hZ2 : ∃ c r, Z2 = c :: r ∧ pyIsSpace c = false)
    (hnone : matchUrlAt (A ++ Z) = none) : matchUrlAt (A ++ Z2) = none := by
  obtain ⟨c, r, rfl, hc⟩ := hZ
  obtain ⟨c2, r2, rfl, hc2⟩ := hZ2
  simp only [matchUrlAt] at hnone ⊢
  rw [isPrefixOf_append_of_le "https://".data A _ (by simpa using hA)] at hnone ⊢
  rw [isPrefixOf_append_of_le "http://".data A _ (by simp; omega)] at hnone ⊢
  by_cases h8 : ("https://".data).isPrefixOf A = true
  · rw [if_pos h8] at hnone ⊢
    rw [List.drop_append_of_le_length (by simpa using hA)] at hnone ⊢
    cases hAd : A.drop 8 with
    | nil =>
        have hpc : (!pyIsSpace c) = true := by simp [hc]
        rw [hAd, List.nil_append, List.takeWhile_cons, if_pos hpc] at hnone
        simp at hnone
    | cons a rest =>
        rw [hAd, List.cons_append, List.takeWhile_cons] at hnone
        rw [List.cons_append, List.takeWhile_cons]
        by_cases hpa : (!pyIsSpace a) = true
        · rw [if_pos hpa] at hnone
          simp at hnone
        · rw [if_neg hpa] at hnone ⊢
          simp
  · rw [if_neg h8] at hnone ⊢
    by_cases h7 : ("http://".data).isPrefixOf A = true
    · rw [if_pos h7] at hnone ⊢
      rw [List.drop_append_of_le_length (by omega)] at hnone ⊢
      cases hAd : A.drop 7 with
      | nil =>
          have hpc : (!pyIsSpace c) = true := by simp [hc]
          rw [hAd, List.nil_append, List.takeWhile_cons, if_pos hpc] at hnone
          simp at hnone
      | cons a rest =>
          rw [hAd, List.cons_append, List.takeWhile_cons] at hnone
          rw [List.cons_append, List.takeWhile_cons]
          by_cases hpa : (!pyIsSpace a) = true
          · rw [if_pos hpa] at hnone
            simp at hnone
          · rw [if_neg hpa] at hnone ⊢
            simp
    · rw [if_neg h7]

lemma encField_mem (kv : Str × Str) (x : Char) (hx : x ∈ encField kv) :
    x ≠ '#' ∧ x ≠ '?' ∧ pyIsSpace x = false := by
  simp only [encField, List.mem_append, List.mem_cons] at hx
  rcases hx with hx | rfl | hx
  · obtain ⟨-, -, h3, h4, h5⟩ := pyQuotePlus_mem _ x hx
    exact ⟨h3, h4, h5⟩
  · exact ⟨by decide, by decide, by decide⟩
  · obtain ⟨-, -, h3, h4, h5⟩ := pyQuotePlus_mem _ x hx
    exact ⟨h3, h4, h5⟩

lemma urlencode_mem (d : List (Str × Str)) (x : Char) (hx : x ∈ urlencode d) :
    x ≠ '#' ∧ x ≠ '?' ∧ pyIsSpace x = false := by
  induction d with
  | nil => simp [urlencode, joinAmp] at hx
  | cons kv rest ih =>
      cases rest with
      | nil =>
          have h1 : urlencode [kv] = encField kv := rfl
          rw [h1] at hx
          exact encField_mem kv x hx
      | cons kv2 rest2 =>
          have h1 : urlencode (kv :: kv2 :: rest2)
              = encField kv ++ '&' :: urlencode (kv2 :: rest2) := by
            rw [urlencode, List.map_cons, joinAmp_cons _ _ (by simp)]
            rfl
          rw [h1] at hx
          simp only [List.mem_append, List.mem_cons] at hx
          rcases hx with hx | rfl | hx
          · exact encField_mem kv x hx
          · exact ⟨by decide, by decide, by decide⟩
          · exact ih hx

lemma urlencode_ne_nil (d : List (Str × Str)) (hd : d ≠ []) : urlencode d ≠ [] := by
  cases d with
  | nil => exact absurd rfl hd
  | cons kv rest =>
      cases rest with
      | nil => exact encField_ne_nil kv
      | cons kv2 rest2 =>
          have h1 : urlencode (kv :: kv2 :: rest2)
              = encField kv ++ '&' :: urlencode (kv2 :: rest2) := by
            rw [urlencode, List.map_cons, joinAmp_cons _ _ (by simp)]
            rfl
          rw [h1]
          intro h
          exact encField_ne_nil kv (List.append_eq_nil.mp h).1

lemma urlparse_match_clean (sch t : Str) (hsch : sch = "http".data ∨ sch = "https".data) :
    (∀ c ∈ (urlparse (sch ++ ':' :: '/' :: '/' :: t)).netloc, netlocDelim c = false ∧ c ∈ t) ∧
    (∀ c ∈ (urlparse (sch ++ ':' :: '/' :: '/' :: t)).path, c ≠ '?' ∧ c ≠ '#' ∧ c ∈ t) ∧
    (∀ c ∈ (urlparse (sch ++ ':' :: '/' :: '/' :: t)).params, c ≠ '?' ∧ c ≠ '#' ∧ c ∈ t) ∧
    (∀ c ∈ (urlparse (sch ++ ':' :: '/' :: '/' :: t)).query, c ∈ t) ∧
    (∀ c ∈ (urlparse (sch ++ ':' :: '/' :: '/' :: t)).fragment, c ∈ t) := by
  simp only [urlparse_components sch t hsch]
  have hRt : ∀ c ∈ t.dropWhile (fun c => !netlocDelim c), c ∈ t :=
    fun c hc => (List.dropWhile_suffix _).mem hc
  have hF1R : ∀ c ∈ (splitFirst '#' (t.dropWhile (fun c => !netlocDelim c))).1,
      c ∈ t.dropWhile (fun c => !netlocDelim c) := splitFirst_fst_subset '#' _
  have hF1f : '#' ∉ (splitFirst '#' (t.dropWhile (fun c => !netlocDelim c))).1 :=
    splitFirst_fst_not_sep '#' _
  have hQ1F1 : ∀ c ∈ (splitFirst '?'
      (splitFirst '#' (t.dropWhile (fun c => !netlocDelim c))).1).1,
      c ∈ (splitFirst '#' (t.dropWhile (fun c => !netlocDelim c))).1 :=
    splitFirst_fst_subset '?' _
  have hQ1q : '?' ∉ (splitFirst '?'
      (splitFirst '#' (t.dropWhile (fun c => !netlocDelim c))).1).1 :=
    splitFirst_fst_not_sep '?' _
  refine ⟨?_, ?_, ?_, ?_, ?_⟩
  · intro c hc
    exact ⟨List.mem_takeWhile_imp hc |> fun h => by simpa using h,
      (List.takeWhile_prefix _).mem hc⟩
  · intro c hc
    have h1 := splitParams_fst_subset _ c hc
    have h2 := hQ1F1 c h1
    exact ⟨fun he => hQ1q (he ▸ h1), fun he => hF1f (he ▸ h2), hRt c (hF1R c h2)⟩
  · intro c hc
    have h1 := splitParams_snd_subset _ c hc
    have h2 := hQ1F1 c h1
    exact ⟨fun he => hQ1q (he ▸ h1), fun he => hF1f (he ▸ h2), hRt c (hF1R c h2)⟩
  · intro c hc
    exact hRt c (hF1R c (splitFirst_snd_subset '?' _ c hc))
  · intro c hc
    exact hRt c (splitFirst_snd_subset '#' _ c hc)



lemma splitParams_nil : splitParams ([] : Str) = ([], []) := rfl

lemma splitParams_slash_head (qt : Str) :
    ∃ pt, (splitParams ('/' :: qt)).1 = '/' :: pt := by
  rcases h1 : splitFirst '/' (('/' :: qt).reverse) with ⟨revAfter, o⟩
  cases o with
  | none =>
      obtain ⟨he, hmem⟩ := splitFirst_eq_none '/' _ revAfter h1
      exact absurd (he ▸ (by simp : '/' ∈ ('/' :: qt).reverse)) hmem
  | some revBefore =>
      obtain ⟨hu, -⟩ := splitFirst_eq_some '/' _ revAfter revBefore h1
      have hu2 : '/' :: qt = revBefore.reverse ++ '/' :: revAfter.reverse := by
        have := congrArg List.reverse hu
        simpa using this
      rcases h2 : splitFirst ';' revAfter.reverse with ⟨bs, o2⟩
      cases o2 with
      | none =>
          simp only [splitParams, h1, h2]
          exact ⟨qt, rfl⟩
      | some ps =>
          simp only [splitParams, h1, h2]
          cases hrb : revBefore.reverse with
          | nil => exact ⟨bs, by simp⟩
          | cons c cs =>
              rw [hrb] at hu2
              have hc : '/' = c := by
                rw [List.cons_append] at hu2
                exact ((List.cons.injEq _ _ _ _).mp hu2).1
              exact ⟨cs ++ '/' :: bs, by rw [← hc]; simp⟩

lemma urlparse_match_path_shape (sch t : Str)
    (hsch : sch = "http".data ∨ sch = "https".data) :
    ((urlparse (sch ++ ':' :: '/' :: '/' :: t)).path = [] →
        (urlparse (sch ++ ':' :: '/' :: '/' :: t)).params = []) ∧
    ((urlparse (sch ++ ':' :: '/' :: '/' :: t)).path ≠ [] →
        ∃ pt, (urlparse (sch ++ ':' :: '/' :: '/' :: t)).path = '/' :: pt) := by
  simp only [urlparse_components sch t hsch]
  have hQ1q : '?' ∉ (splitFirst '?'
      (splitFirst '#' (t.dropWhile (fun c => !netlocDelim c))).1).1 :=
    splitFirst_fst_not_sep '?' _
  have hF1f : '#' ∉ (splitFirst '#' (t.dropWhile (fun c => !netlocDelim c))).1 :=
    splitFirst_fst_not_sep '#' _
  have hQshape : (splitFirst '?'
      (splitFirst '#' (t.dropWhile (fun c => !netlocDelim c))).1).1 = [] ∨
      ∃ qt, (splitFirst '?'
        (splitFirst '#' (t.dropWhile (fun c => !netlocDelim c))).1).1 = '/' :: qt := by
    rcases dropWhile_shape (fun c => !netlocDelim c) t with hR | ⟨rc, rt, hR, hrc⟩
    · rw [hR]
      exact Or.inl rfl
    · have hrc3 : rc = '/' ∨ rc = '?' ∨ rc = '#' := by
        have hdel : netlocDelim rc = true := by simpa using hrc
        simpa [netlocDelim, or_assoc] using hdel
      have hF1pre : ∃ z, t.dropWhile (fun c => !netlocDelim c)
          = (splitFirst '#' (t.dropWhile (fun c => !netlocDelim c))).1 ++ z := by
        rcases hf : splitFirst '#' (t.dropWhile (fun c => !netlocDelim c)) with ⟨f1, fo⟩
        cases fo with
        | none =>
            obtain ⟨he, -⟩ := splitFirst_eq_none '#' _ f1 hf
            exact ⟨[], by simp [hf, he.symm]⟩
        | some fb =>
            obtain ⟨he, -⟩ := splitFirst_eq_some '#' _ f1 fb hf
            exact ⟨'#' :: fb, by simp [hf, he]⟩
      have hQ1pre : ∃ z, (splitFirst '#' (t.dropWhile (fun c => !netlocDelim c))).1
          = (splitFirst '?'
              (splitFirst '#' (t.dropWhile (fun c => !netlocDelim c))).1).1 ++ z := by
        rcases hq : splitFirst '?'
            (splitFirst '#' (t.dropWhile (fun c => !netlocDelim c))).1 with ⟨q1, qo⟩
        cases qo with
        | none =>
            obtain ⟨he, -⟩ := splitFirst_eq_none '?' _ q1 hq
            exact ⟨[], by simp [hq, he.symm]⟩
        | some qb =>
            obtain ⟨he, -⟩ := splitFirst_eq_some '?' _ q1 qb hq
            exact ⟨'?' :: qb, by simp [hq, he]⟩
      obtain ⟨z1, hz1⟩ := hF1pre
      obtain ⟨z2, hz2⟩ := hQ1pre
      cases hQc : (splitFirst '?'
          (splitFirst '#' (t.dropWhile (fun c => !netlocDelim c))).1).1 with
      | nil => exact Or.inl rfl
      | cons a as =>
          rw [hQc] at hz2
          rw [hz2] at hz1
          rw [hR] at hz1
          simp only [List.cons_append, List.append_assoc] at hz1
          have hhead : a = rc := ((List.cons.injEq _ _ _ _).mp hz1).1.symm
          have haQ : a ∈ (splitFirst '?'
              (splitFirst '#' (t.dropWhile (fun c => !netlocDelim c))).1).1 := by
            rw [hQc]
            simp
          have haF : a ∈ (splitFirst '#' (t.dropWhile (fun c => !netlocDelim c))).1 := by
            rw [hz2]
            simp
          rcases hrc3 with rfl | rfl | rfl
          · exact Or.inr ⟨as, by rw [hhead]⟩
          · exact absurd haQ (by rw [hhead] at haQ ⊢; exact hQ1q)
          · exact absurd haF (by rw [hhead] at haF ⊢; exact hF1f)
  rcases hQshape with hQ | ⟨qt, hQ⟩
  · rw [hQ, splitParams_nil]
    exact ⟨fun _ => rfl, fun h => absurd rfl h⟩
  · rw [hQ]
    obtain ⟨pt, hpt⟩ := splitParams_slash_head qt
    exact ⟨fun h => absurd (h ▸ hpt) (by simp), fun _ => ⟨pt, hpt⟩⟩

lemma unparseBody_of (p : UrlParts)
    (hnl : ∀ c ∈ p.netloc, netlocDelim c = false ∧ pyIsSpace c = false)
    (hpa : ∀ c ∈ p.path, c ≠ '?' ∧ c ≠ '#' ∧ pyIsSpace c = false)
    (hpr : ∀ c ∈ p.params, c ≠ '?' ∧ c ≠ '#' ∧ pyIsSpace c = false)
    (hshape1 : p.path = [] → p.params = [])
    (hshape2 : p.path ≠ [] → ∃ pt, p.path = '/' :: pt) :
    (∀ c ∈ unparseBody p, c ≠ '?' ∧ c ≠ '#' ∧ pyIsSpace c = false) ∧
    (p.netloc ≠ [] → unparseBody p = '/' :: '/' :: (p.netloc ++
        (if p.params ≠ [] then p.path ++ ';' :: p.params else p.path))) := by
  have hnl2 : ∀ c ∈ p.netloc, c ≠ '?' ∧ c ≠ '#' ∧ pyIsSpace c = false := by
    intro c hc
    obtain ⟨hd, hs⟩ := hnl c hc
    have h3 : (¬c = '/' ∧ ¬c = '?') ∧ ¬c = '#' := by
      simpa [netlocDelim] using hd
    exact ⟨h3.1.2, h3.2, hs⟩
  have hXmem : ∀ c ∈ (if p.params ≠ [] then p.path ++ ';' :: p.params else p.path),
      c ≠ '?' ∧ c ≠ '#' ∧ pyIsSpace c = false := by
    by_cases hprm : p.params = []
    · simp only [ne_eq, hprm, not_true_eq_false, if_false]
      exact hpa
    · simp only [ne_eq, hprm, not_false_eq_true, if_true]
      intro c hc
      rcases List.mem_append.mp hc with hc | hc
      · exact hpa c hc
      · rcases List.mem_cons.mp hc with rfl | hc
        · exact ⟨by decide, by decide, by decide⟩
        · exact hpr c hc
  have hadj : (if ((if p.params ≠ [] then p.path ++ ';' :: p.params else p.path) ≠ []
        && !((if p.params ≠ [] then p.path ++ ';' :: p.params else p.path).take 1
          = ['/'] : Bool) : Bool) = true
      then '/' :: (if p.params ≠ [] then p.path ++ ';' :: p.params else p.path)
      else (if p.params ≠ [] then p.path ++ ';' :: p.params else p.path))
      = (if p.params ≠ [] then p.path ++ ';' :: p.params else p.path) := by
    by_cases hpath : p.path = []
    · have hprm := hshape1 hpath
      simp [hpath, hprm]
    · obtain ⟨pt, hpt⟩ := hshape2 hpath
      by_cases hprm : p.params = []
      · simp [hprm, hpt]
      · simp [hprm, hpt]
  constructor
  · intro c hc
    simp only [unparseBody] at hc
    by_cases hcond : (p.netloc ≠ [] ||
        (p.scheme ≠ [] && usesNetloc p.scheme
          && !((if p.params ≠ [] then p.path ++ ';' :: p.params else p.path).take 2
            = "//".data : Bool)) : Bool) = true
    · rw [if_pos hcond, hadj] at hc
      rcases List.mem_cons.mp hc with rfl | hc
      · exact ⟨by decide, by decide, by decide⟩
      · rcases List.mem_cons.mp hc with rfl | hc
        · exact ⟨by decide, by decide, by decide⟩
        · rcases List.mem_append.mp hc with hc | hc
          · exact hnl2 c hc
          · exact hXmem c hc
    · rw [if_neg hcond] at hc
      exact hXmem c hc
  · intro hnet
    have hcond : (p.netloc ≠ [] ||
        (p.scheme ≠ [] && usesNetloc p.scheme
          && !((if p.params ≠ [] then p.path ++ ';' :: p.params else p.path).take 2
            = "//".data : Bool)) : Bool) = true := by
      simp [hnet]
    simp only [unparseBody]
    rw [if_pos hcond, hadj]
    simp

lemma urlparse_reparse_qf (sch B2 q f : Str)
    (hsch : sch = "http".data ∨ sch = "https".data)
    (hB2 : ∀ c ∈ B2, c ≠ '?' ∧ c ≠ '#')
    (hqc : ∀ c ∈ q, c ≠ '?' ∧ c ≠ '#') :
    (urlparse (sch ++ ':' :: '/' :: '/' ::
        (B2 ++ '?' :: q ++ (if f = [] then [] else '#' :: f)))).query = q ∧
    (urlparse (sch ++ ':' :: '/' :: '/' ::
        (B2 ++ '?' :: q ++ (if f = [] then [] else '#' :: f)))).fragment = f ∧
    (urlparse (sch ++ ':' :: '/' :: '/' ::
        (B2 ++ '?' :: q ++ (if f = [] then [] else '#' :: f)))).scheme = sch := by
  simp only [urlparse_components sch _ hsch, List.cons_append, List.append_assoc]
  obtain ⟨B3, hB3, hB3mem⟩ := dropWhile_append_stop (fun c => !netlocDelim c) B2 '?'
    (q ++ (if f = [] then [] else '#' :: f)) (by simp [netlocDelim])
  rw [hB3]
  have hB3q : '?' ∉ B3 := fun hm => (hB2 _ (hB3mem _ hm)).1 rfl
  have hB3f : '#' ∉ B3 := fun hm => (hB2 _ (hB3mem _ hm)).2 rfl
  by_cases hf : f = []
  · subst hf
    have he : (if ([] : Str) = [] then ([] : Str) else '#' :: ([] : Str)) = [] := rfl
    rw [he, List.append_nil] at hB3 ⊢
    have hsharp : '#' ∉ B3 ++ '?' :: q := by
      intro hm
      rcases List.mem_append.mp hm with hm | hm
      · exact hB3f hm
      · rcases List.mem_cons.mp hm with he | hm
        · exact absurd he (by decide)
        · exact (hqc _ hm).2 rfl
    rw [splitFirst_no_sep '#' _ hsharp]
    simp only
    rw [splitFirst_append_sep '?' B3 q hB3q]
    simp
  · simp only [if_neg hf]
    have hassoc : B3 ++ '?' :: (q ++ '#' :: f) = (B3 ++ '?' :: q) ++ '#' :: f := by
      simp
    rw [hassoc]
    have hsharp : '#' ∉ B3 ++ '?' :: q := by
      intro hm
      rcases List.mem_append.mp hm with hm | hm
      · exact hB3f hm
      · rcases List.mem_cons.mp hm with he | hm
        · exact absurd he (by decide)
        · exact (hqc _ hm).2 rfl
    rw [splitFirst_append_sep '#' _ f hsharp]
    simp only
    rw [splitFirst_append_sep '?' B3 q hB3q]
    simp

lemma urlparse_reparse_full (sch NL X q f : Str)
    (hsch : sch = "http".data ∨ sch = "https".data)
    (hNLc : ∀ c ∈ NL, netlocDelim c = false)
    (hX : X = [] ∨ ∃ xt, X = '/' :: xt)
    (hXc : ∀ c ∈ X, c ≠ '?' ∧ c ≠ '#')
    (hqc : ∀ c ∈ q, c ≠ '?' ∧ c ≠ '#') :
    urlparse (sch ++ ':' :: '/' :: '/' ::
        (NL ++ X ++ '?' :: q ++ (if f = [] then [] else '#' :: f)))
      = ⟨sch, NL, (splitParams X).1, (splitParams X).2, q, f⟩ := by
  rw [urlparse_components sch _ hsch]
  have hsplit := takeWhile_append_all (fun c => !netlocDelim c) NL
    (X ++ '?' :: (q ++ (if f = [] then [] else '#' :: f)))
    (fun c hc => by simp [hNLc c hc]) ?side
  case side =>
    rcases hX with rfl | ⟨xt, rfl⟩
    · exact Or.inr ⟨'?', q ++ (if f = [] then [] else '#' :: f), by simp, by simp [netlocDelim]⟩
    · exact Or.inr ⟨'/', xt ++ '?' :: (q ++ (if f = [] then [] else '#' :: f)),
        by simp, by simp [netlocDelim]⟩
  obtain ⟨htk, hdw⟩ := hsplit
  have hassoc : NL ++ X ++ '?' :: q ++ (if f = [] then [] else '#' :: f)
      = NL ++ (X ++ '?' :: (q ++ (if f = [] then [] else '#' :: f))) := by
    simp
  rw [hassoc, htk, hdw]
  have hXq : '?' ∉ X := fun hm => (hXc _ hm).1 rfl
  have hXf : '#' ∉ X := fun hm => (hXc _ hm).2 rfl
  by_cases hf : f = []
  · subst hf
    have he : (if ([] : Str) = [] then ([] : Str) else '#' :: ([] : Str)) = [] := rfl
    rw [he, List.append_nil]
    have hsharp : '#' ∉ X ++ '?' :: q := by
      intro hm
      rcases List.mem_append.mp hm with hm | hm
      · exact hXf hm
      · rcases List.mem_cons.mp hm with heq | hm
        · exact absurd heq (by decide)
        · exact (hqc _ hm).2 rfl
    rw [splitFirst_no_sep '#' _ hsharp]
    simp only
    rw [splitFirst_append_sep '?' X q hXq]
    simp
  · simp only [if_neg hf]
    have hassoc2 : X ++ '?' :: (q ++ '#' :: f) = (X ++ '?' :: q) ++ '#' :: f := by
      simp
    rw [hassoc2]
    have hsharp : '#' ∉ X ++ '?' :: q := by
      intro hm
      rcases List.mem_append.mp hm with hm | hm
      · exact hXf hm
      · rcases List.mem_cons.mp hm with heq | hm
        · exact absurd heq (by decide)
        · exact (hqc _ hm).2 rfl
    rw [splitFirst_append_sep '#' _ f hsharp]
    simp only
    rw [splitFirst_append_sep '?' X q hXq]
    simp

lemma pyDictInsert_ne_nil (d : List (Str × Str)) (k v : Str) : pyDictInsert d k v ≠ [] := by
  cases d with
  | nil => simp [pyDictInsert]
  | cons kv rest =>
      obtain ⟨k0, v0⟩ := kv
      by_cases h : k0 = k <;> simp [pyDictInsert, h]

set_option maxHeartbeats 1600000 in
lemma add_query_param_master (sch t key v : Str)
    (hsch : sch = "http".data ∨ sch = "https".data)
    (ht : ∀ c ∈ t, pyIsSpace c = false)
    (ht256 : ∀ c ∈ t, c.toNat < 256)
    (hk256 : ∀ c ∈ key, c.toNat < 256)
    (hv256 : ∀ c ∈ v, c.toNat < 256) :
    (∃ t2, add_query_param (sch ++ ':' :: '/' :: '/' :: t) key v
        = sch ++ ':' :: '/' :: '/' :: t2 ∧ t2 ≠ [] ∧ ∀ c ∈ t2, pyIsSpace c = false) ∧
    parse_qsl (urlparse (add_query_param (sch ++ ':' :: '/' :: '/' :: t) key v)).query
      = pyDictInsert (pyDict (parse_qsl
          (urlparse (sch ++ ':' :: '/' :: '/' :: t)).query)) key v ∧
    ((urlparse (sch ++ ':' :: '/' :: '/' :: t)).netloc ≠ [] →
      add_query_param (add_query_param (sch ++ ':' :: '/' :: '/' :: t) key v) key v
        = add_query_param (sch ++ ':' :: '/' :: '/' :: t) key v ∧
      (urlparse (add_query_param (sch ++ ':' :: '/' :: '/' :: t) key v)).netloc
        = (urlparse (sch ++ ':' :: '/' :: '/' :: t)).netloc) := by
  have hPs : (urlparse (sch ++ ':' :: '/' :: '/' :: t)).scheme = sch := by
    rw [urlparse_components sch t hsch]
  obtain ⟨hcnl, hcpa, hcpr, hcq, hcf⟩ := urlparse_match_clean sch t hsch
  obtain ⟨hshp1, hshp2⟩ := urlparse_match_path_shape sch t hsch
  have hd256 : ∀ kv ∈ pyDictInsert (pyDict (parse_qsl
      (urlparse (sch ++ ':' :: '/' :: '/' :: t)).query)) key v,
      (∀ c ∈ kv.1, c.toNat < 256) ∧ (∀ c ∈ kv.2, c.toNat < 256) := by
    intro kv hkv
    rcases mem_pyDictInsert key v _ kv hkv with hkv | rfl
    · exact parse_qsl_chars _ (fun c hc => ht256 c (hcq c hc)) kv (mem_pyDict _ _ hkv)
    · exact ⟨hk256, hv256⟩
  have hqe : parse_qsl (urlencode (pyDictInsert (pyDict (parse_qsl
      (urlparse (sch ++ ':' :: '/' :: '/' :: t)).query)) key v))
      = pyDictInsert (pyDict (parse_qsl
          (urlparse (sch ++ ':' :: '/' :: '/' :: t)).query)) key v :=
    parse_qsl_urlencode _ hd256
  have hNQne : urlencode (pyDictInsert (pyDict (parse_qsl
      (urlparse (sch ++ ':' :: '/' :: '/' :: t)).query)) key v) ≠ [] :=
    urlencode_ne_nil _ (pyDictInsert_ne_nil _ _ _)
  obtain ⟨hbodymem, hbodynet⟩ := unparseBody_of (urlparse (sch ++ ':' :: '/' :: '/' :: t))
    (fun c hc => ⟨(hcnl c hc).1, ht c (hcnl c hc).2⟩)
    (fun c hc => ⟨(hcpa c hc).1, (hcpa c hc).2.1, ht c (hcpa c hc).2.2⟩)
    (fun c hc => ⟨(hcpr c hc).1, (hcpr c hc).2.1, ht c (hcpr c hc).2.2⟩)
    hshp1 hshp2
  have hsch2 : ({ urlparse (sch ++ ':' :: '/' :: '/' :: t) with
      query := urlencode (pyDictInsert (pyDict (parse_qsl
        (urlparse (sch ++ ':' :: '/' :: '/' :: t)).query)) key v) }).scheme
      = "http".data ∨ ({ urlparse (sch ++ ':' :: '/' :: '/' :: t) with
      query := urlencode (pyDictInsert (pyDict (parse_qsl
        (urlparse (sch ++ ':' :: '/' :: '/' :: t)).query)) key v) }).scheme
      = "https".data := by
    show (urlparse (sch ++ ':' :: '/' :: '/' :: t)).scheme = "http".data ∨
      (urlparse (sch ++ ':' :: '/' :: '/' :: t)).scheme = "https".data
    rw [hPs]
    exact hsch
  obtain ⟨hun, htk2⟩ := urlunparse_shape _ hsch2
  set P := urlparse (sch ++ ':' :: '/' :: '/' :: t) with hPdef
  set d := pyDictInsert (pyDict (parse_qsl P.query)) key v with hddef
  set NQ := urlencode d with hNQdef
  have hbodyeq : unparseBody { P with query := NQ } = unparseBody P := rfl
  rw [hbodyeq] at hun htk2
  have hq' : ({ P with query := NQ }).query = NQ := rfl
  have hf' : ({ P with query := NQ }).fragment = P.fragment := rfl
  have hs' : ({ P with query := NQ }).scheme = P.scheme := rfl
  rw [hq', hf', hs', hPs, if_neg hNQne] at hun
  have haqp1 : add_query_param (sch ++ ':' :: '/' :: '/' :: t) key v
      = urlunparse { P with query := NQ } := rfl
  have hbsplit : unparseBody P = '/' :: '/' :: (unparseBody P).drop 2 := by
    conv_lhs => rw [← List.take_append_drop 2 (unparseBody P)]
    rw [htk2]
    rfl
  have hnewUrl : add_query_param (sch ++ ':' :: '/' :: '/' :: t) key v
      = sch ++ ':' :: '/' :: '/' :: ((unparseBody P).drop 2 ++ '?' :: NQ
          ++ (if P.fragment = [] then [] else '#' :: P.fragment)) := by
    rw [haqp1, hun]
    conv_lhs => rw [hbsplit]
    simp only [List.cons_append, List.append_assoc]
  have ht2mem : ∀ c ∈ (unparseBody P).drop 2 ++ '?' :: NQ
      ++ (if P.fragment = [] then [] else '#' :: P.fragment), pyIsSpace c = false := by
    intro c hc
    rcases List.mem_append.mp hc with hc | hc
    · rcases List.mem_append.mp hc with hc | hc
      · exact (hbodymem c (List.mem_of_mem_drop hc)).2.2
      · rcases List.mem_cons.mp hc with rfl | hc
        · decide
        · exact (urlencode_mem d c hc).2.2
    · by_cases hfr : P.fragment = []
      · rw [if_pos hfr] at hc
        simp at hc
      · rw [if_neg hfr] at hc
        rcases List.mem_cons.mp hc with rfl | hc
        · decide
        · exact ht c (hcf c hc)
  have ht2ne : (unparseBody P).drop 2 ++ '?' :: NQ
      ++ (if P.fragment = [] then [] else '#' :: P.fragment) ≠ [] := by
    intro h
    obtain ⟨h2, -⟩ := List.append_eq_nil.mp h
    obtain ⟨-, h3⟩ := List.append_eq_nil.mp h2
    exact absurd h3 (by simp)
  have hB2c : ∀ c ∈ (unparseBody P).drop 2, c ≠ '?' ∧ c ≠ '#' := fun c hc =>
    ⟨(hbodymem c (List.mem_of_mem_drop hc)).1, (hbodymem c (List.mem_of_mem_drop hc)).2.1⟩
  have hNQc : ∀ c ∈ NQ, c ≠ '?' ∧ c ≠ '#' := fun c hc =>
    ⟨(urlencode_mem d c hc).2.1, (urlencode_mem d c hc).1⟩
  obtain ⟨hq2, -, -⟩ :=
    urlparse_reparse_qf sch ((unparseBody P).drop 2) NQ P.fragment hsch hB2c hNQc
  refine ⟨⟨_, hnewUrl, ht2ne, ht2mem⟩, ?_, ?_⟩
  · rw [hnewUrl, hq2]
    exact hqe
  · intro hnet
    have hbody2 := hbodynet hnet
    set X := (if P.params ≠ [] then P.path ++ ';' :: P.params else P.path) with hXdef
    have hB2eq : (unparseBody P).drop 2 = P.netloc ++ X := by
      rw [hbody2]
      rfl
    have hXc : ∀ c ∈ X, c ≠ '?' ∧ c ≠ '#' := by
      intro c hc
      rw [hXdef] at hc
      by_cases hprm : P.params = []
      · rw [if_neg (by simp [hprm])] at hc
        exact ⟨(hcpa c hc).1, (hcpa c hc).2.1⟩
      · rw [if_pos (by simp [hprm])] at hc
        rcases List.mem_append.mp hc with hc | hc
        · exact ⟨(hcpa c hc).1, (hcpa c hc).2.1⟩
        · rcases List.mem_cons.mp hc with rfl | hc
          · exact ⟨by decide, by decide⟩
          · exact ⟨(hcpr c hc).1, (hcpr c hc).2.1⟩
    have hXshape : X = [] ∨ ∃ xt, X = '/' :: xt := by
      by_cases hpath : P.path = []
      · have hprm := hshp1 hpath
        rw [hXdef, if_neg (by simp [hprm]), hpath]
        exact Or.inl rfl
      · obtain ⟨pt, hpt⟩ := hshp2 hpath
        by_cases hprm : P.params = []
        · rw [hXdef, if_neg (by simp [hprm]), hpt]
          exact Or.inr ⟨pt, rfl⟩
        · rw [hXdef, if_pos (by simp [hprm]), hpt]
          exact Or.inr ⟨pt ++ ';' :: P.params, by simp⟩
    have hre := urlparse_reparse_full sch P.netloc X NQ P.fragment hsch
      (fun c hc => (hcnl c hc).1) hXshape hXc hNQc
    have hnewUrl2 : add_query_param (sch ++ ':' :: '/' :: '/' :: t) key v
        = sch ++ ':' :: '/' :: '/' :: (P.netloc ++ X ++ '?' :: NQ
            ++ (if P.fragment = [] then [] else '#' :: P.fragment)) := by
      rw [hnewUrl, hB2eq]
    have hpq1 : P.path = (splitParams (splitFirst '?'
        (splitFirst '#' (t.dropWhile (fun c => !netlocDelim c))).1).1).1 := by
      rw [hPdef, urlparse_components sch t hsch]
    have hpq2 : P.params = (splitParams (splitFirst '?'
        (splitFirst '#' (t.dropWhile (fun c => !netlocDelim c))).1).1).2 := by
      rw [hPdef, urlparse_components sch t hsch]
    have hsplitX : splitParams X = (P.path, P.params) := by
      have hc2 := splitParams_combine (splitFirst '?'
        (splitFirst '#' (t.dropWhile (fun c => !netlocDelim c))).1).1
      rw [← hpq1, ← hpq2] at hc2
      have hXif : X = (if P.params = [] then P.path else P.path ++ ';' :: P.params) := by
        rw [hXdef]
        by_cases hprm : P.params = [] <;> simp [hprm]
      rw [hXif, hc2, hpq1, hpq2]
    rw [hsplitX] at hre
    have hparse : urlparse (add_query_param (sch ++ ':' :: '/' :: '/' :: t) key v)
        = ⟨sch, P.netloc, P.path, P.params, NQ, P.fragment⟩ := by
      rw [hnewUrl2]
      exact hre
    have haqp2 : add_query_param (add_query_param (sch ++ ':' :: '/' :: '/' :: t) key v) key v
        = urlunparse { urlparse (add_query_param (sch ++ ':' :: '/' :: '/' :: t) key v) with
            query := urlencode (pyDictInsert (pyDict (parse_qsl
              (urlparse (add_query_param (sch ++ ':' :: '/' :: '/' :: t) key v)).query))
              key v) } := rfl
    refine ⟨?_, by rw [hparse]⟩
    rw [haqp2, hparse]
    have hqproj : (⟨sch, P.netloc, P.path, P.params, NQ, P.fragment⟩ : UrlParts).query
        = NQ := rfl
    rw [hqproj, hNQdef, hqe]
    have hnodup : (d.map Prod.fst).Nodup := by
      rw [hddef]
      exact nodup_keys_pyDictInsert key v _ (nodup_keys_pyDict _)
    have hpyd : pyDict d = d := pyDict_eq_self d hnodup
    rw [hpyd]
    have hins : pyDictInsert d key v = d := by
      rw [hddef]
      exact pyDictInsert_idem _ key v
    rw [hins, ← hNQdef]
    have hrec : ({ (⟨sch, P.netloc, P.path, P.params, NQ, P.fragment⟩ : UrlParts) with
        query := NQ }) = { P with query := NQ } := by
      rw [← hPs]
    rw [hrec, ← haqp1]

lemma find_first_url_decomp (msg url : Str) (s0 e0 : ℕ)
    (hf : find_first_url msg = some (url, s0, e0)) :
    e0 = s0 + url.length ∧ s0 ≤ msg.length ∧
    msg = msg.take s0 ++ url ++ msg.drop e0 ∧
    matchUrlAt (msg.drop s0) = some url ∧
    (∀ j, j < s0 → matchUrlAt (msg.drop j) = none) ∧
    (msg.drop e0 = [] ∨ ∃ c r, msg.drop e0 = c :: r ∧ pyIsSpace c = true) := by
  obtain ⟨-, he, hm, hnone⟩ := ffuAux_some_facts msg 0 url s0 e0 hf
  rw [Nat.sub_zero] at hm hnone
  obtain ⟨sch, tt, -, hurl, htne, -, hsplit, htrail⟩ :=
    matchUrlAt_some_destruct (msg.drop s0) url hm
  have hdd : (msg.drop s0).drop url.length = msg.drop e0 := by
    rw [List.drop_drop, he, Nat.add_comm]
  have hs0 : s0 ≤ msg.length := by
    by_contra hlt
    push_neg at hlt
    have hnil : msg.drop s0 = [] := List.drop_eq_nil_of_le (le_of_lt hlt)
    rw [hnil] at hm
    have : matchUrlAt ([] : Str) = none := rfl
    rw [this] at hm
    exact Option.noConfusion hm
  refine ⟨he, hs0, ?_, hm, hnone, ?_⟩
  · conv_lhs => rw [← List.take_append_drop s0 msg]
    rw [hsplit, hdd]
    simp [List.append_assoc]
  · rw [← hdd]
    exact htrail

lemma find_first_url_of_splice (msg url t2 : Str) (s0 e0 : ℕ) (sch t : Str)
    (hsch : sch = "http".data ∨ sch = "https".data)
    (hurl : url = sch ++ ':' :: '/' :: '/' :: t)
    (htne : t ≠ []) (hts : ∀ c ∈ t, pyIsSpace c = false)
    (ht2 : t2 ≠ []) (ht2s : ∀ c ∈ t2, pyIsSpace c = false)
    (hf : find_first_url msg = some (url, s0, e0)) :
    find_first_url (msg.take s0 ++ (sch ++ ':' :: '/' :: '/' :: t2) ++ msg.drop e0)
      = some (sch ++ ':' :: '/' :: '/' :: t2, s0,
          s0 + (sch ++ ':' :: '/' :: '/' :: t2).length) := by
  obtain ⟨he, hs0, hdec, hm, hnone, htrail⟩ := find_first_url_decomp msg url s0 e0 hf
  have hlen : (msg.take s0).length = s0 := by
    rw [List.length_take]
    omega
  obtain ⟨c2, r2, hc2⟩ : ∃ c r, t2 = c :: r := by
    cases t2 with
    | nil => exact absurd rfl ht2
    | cons a b => exact ⟨a, b, rfl⟩
  obtain ⟨c1, r1, hc1⟩ : ∃ c r, t = c :: r := by
    cases t with
    | nil => exact absurd rfl htne
    | cons a b => exact ⟨a, b, rfl⟩
  have hfin := ffuAux_of (msg.take s0 ++ (sch ++ ':' :: '/' :: '/' :: t2) ++ msg.drop e0)
    0 s0 (sch ++ ':' :: '/' :: '/' :: t2) ?nones ?mtc
  case nones =>
    intro j hj
    have hj2 : j ≤ (msg.take s0).length := by omega
    have hdropm : (msg.take s0 ++ (sch ++ ':' :: '/' :: '/' :: t2) ++ msg.drop e0).drop j
        = ((msg.take s0).drop j ++ (sch ++ [':', '/', '/'])) ++ (t2 ++ msg.drop e0) := by
      rw [List.append_assoc, List.drop_append_of_le_length hj2]
      simp [List.append_assoc]
    have hdropold : msg.drop j
        = ((msg.take s0).drop j ++ (sch ++ [':', '/', '/'])) ++ (t ++ msg.drop e0) := by
      conv_lhs => rw [hdec]
      rw [List.append_assoc, List.drop_append_of_le_length hj2, hurl]
      simp [List.append_assoc]
    have hAlen : 8 ≤ ((msg.take s0).drop j ++ (sch ++ [':', '/', '/'])).length := by
      have h1 : ((msg.take s0).drop j).length = s0 - j := by
        rw [List.length_drop, hlen]
      have h2 : 4 ≤ sch.length := by
        rcases hsch with rfl | rfl <;> simp
      have h3 : ([':', '/', '/'] : Str).length = 3 := rfl
      simp only [List.length_append, h1, h3]
      omega
    have hold : matchUrlAt (((msg.take s0).drop j ++ (sch ++ [':', '/', '/']))
        ++ (t ++ msg.drop e0)) = none := by
      rw [← hdropold]
      exact hnone j hj
    have := matchUrlAt_none_suffix_indep _ (t ++ msg.drop e0) (t2 ++ msg.drop e0) hAlen
      ⟨c1, r1 ++ msg.drop e0, by rw [hc1]; rfl, hts c1 (by rw [hc1]; simp)⟩
      ⟨c2, r2 ++ msg.drop e0, by rw [hc2]; rfl, ht2s c2 (by rw [hc2]; simp)⟩
      hold
    rw [hdropm]
    exact this
  case mtc =>
    have hdropm : (msg.take s0 ++ (sch ++ ':' :: '/' :: '/' :: t2) ++ msg.drop e0).drop s0
        = (sch ++ ':' :: '/' :: '/' :: t2) ++ msg.drop e0 := by
      rw [List.append_assoc, List.drop_append_of_le_length (by rw [hlen])]
      have hnil : (msg.take s0).drop s0 = [] := List.drop_eq_nil_of_le (by rw [hlen])
      rw [hnil, List.nil_append]
    rw [hdropm]
    have : (sch ++ ':' :: '/' :: '/' :: t2) ++ msg.drop e0
        = sch ++ ':' :: '/' :: '/' :: t2 ++ msg.drop e0 := by
      simp [List.append_assoc]
    rw [this]
    exact matchUrlAt_some_of sch t2 (msg.drop e0) hsch ht2 ht2s htrail
  rw [find_first_url]
  rw [hfin]
  simp

lemma isDigit_toNat_lt (c : Char) (h : c.isDigit = true) : c.toNat < 256 := by
  simp only [Char.isDigit, Bool.and_eq_true, decide_eq_true_eq] at h
  have h2 : c.val ≤ 57 := h.2
  have h3 : c.val.toNat ≤ (57 : UInt32).toNat := by
    rw [UInt32.le_def, BitVec.le_def] at h2
    simpa using h2
  simp only [Char.toNat]
  have h4 : (57 : UInt32).toNat = 57 := rfl
  omega


lemma add_query_paramE_ok (url key v : Str)
    (h : netlocBracketOk (urlparse url).netloc = true) :
    add_query_paramE url key v = .ok (add_query_param url key v) := by
  simp only [add_query_paramE, urlparseE, h, if_true]
  rfl

lemma add_query_paramE_err (url key v : Str)
    (h : netlocBracketOk (urlparse url).netloc = false) :
    add_query_paramE url key v = .error () := by
  simp only [add_query_paramE, urlparseE, h, Bool.false_eq_true, if_false]
  rfl

/-- **C7.** `personalize_link_in_message` as executed (`ValueError` as
`Except.error`): it is the identity on messages with no URL; when the first
URL's netloc fails `urlsplit`'s bracket validation the call raises (aborting
the run) instead of rewriting; on a message whose first URL `url` spans
`[s0, e0)` and passes that validation, the result splices
`add_query_param url "cid" digits` into exactly that span (text outside the
span is unchanged), the rewritten URL's `cid` query value is the digits-only
identity (overwriting any existing `cid`), and every other query parameter is
preserved.  The rewrite is idempotent *provided the URL has a nonempty
authority (netloc)* — the spec's unconditional claims fail both on bracketed
netlocs like `http://[x` (raise) and on empty-netloc URLs like `http://////x`
(each render shortens the URL); see `C7_counterexample`. -/
theorem C7_link_personalization :
    (∀ msg phone : Str, find_first_url msg = none →
      personalize_link_in_messageE msg phone "cid".data = .ok msg) ∧
    (∀ msg phone url : Str, ∀ s0 e0 : ℕ,
      find_first_url msg = some (url, s0, e0) →
      netlocBracketOk (urlparse url).netloc = false →
      personalize_link_in_messageE msg phone "cid".data = .error ()) ∧
    (∀ msg phone url : Str, ∀ s0 e0 : ℕ,
      (∀ c ∈ msg, c.toNat < 256) →
      find_first_url msg = some (url, s0, e0) →
      netlocBracketOk (urlparse url).netloc = true →
      ∃ newUrl,
        personalize_link_in_messageE msg phone "cid".data
          = .ok (msg.take s0 ++ newUrl ++ msg.drop e0) ∧
        newUrl = add_query_param url "cid".data (phone.filter Char.isDigit) ∧
        qlookup "cid".data (pyDict (parse_qsl (urlparse newUrl).query))
          = some (phone.filter Char.isDigit) ∧
        (∀ k, k ≠ "cid".data →
          qlookup k (pyDict (parse_qsl (urlparse newUrl).query))
            = qlookup k (pyDict (parse_qsl (urlparse url).query))) ∧
        ((urlparse url).netloc ≠ [] →
          personalize_link_in_messageE (msg.take s0 ++ newUrl ++ msg.drop e0)
              phone "cid".data
            = .ok (msg.take s0 ++ newUrl ++ msg.drop e0))) := by
  refine ⟨?_, ?_, ?_⟩
  · intro msg phone hf
    simp [personalize_link_in_messageE, hf]
  · intro msg phone url s0 e0 hf hbad
    simp only [personalize_link_in_messageE, hf]
    rw [add_query_paramE_err _ _ _ hbad]
    rfl
  · intro msg phone url s0 e0 h256 hf hok
    obtain ⟨he, hs0, hdec, hm, hnone, htrail⟩ := find_first_url_decomp msg url s0 e0 hf
    obtain ⟨sch, t, hsch, hurl, htne, hts, -, -⟩ :=
      matchUrlAt_some_destruct (msg.drop s0) url hm
    have hturl : ∀ c ∈ t, c ∈ msg := by
      intro c hc
      rw [hdec]
      have hcu : c ∈ url := by rw [hurl]; simp [hc]
      simp [hcu]
    have ht256 : ∀ c ∈ t, c.toNat < 256 := fun c hc => h256 c (hturl c hc)
    have hk256 : ∀ c ∈ ("cid".data : Str), c.toNat < 256 := by decide
    have hv256 : ∀ c ∈ phone.filter Char.isDigit, c.toNat < 256 := by
      intro c hc
      exact isDigit_toNat_lt c (List.of_mem_filter hc)
    obtain ⟨⟨t2, hnu, ht2ne, ht2s⟩, hq, hidem⟩ :=
      add_query_param_master sch t "cid".data (phone.filter Char.isDigit)
        hsch hts ht256 hk256 hv256
    rw [← hurl] at hnu hq hidem
    set d := pyDictInsert (pyDict (parse_qsl (urlparse url).query)) "cid".data
      (phone.filter Char.isDigit) with hddef
    have hnodup : (d.map Prod.fst).Nodup := by
      rw [hddef]
      exact nodup_keys_pyDictInsert _ _ _ (nodup_keys_pyDict _)
    have hpyd : pyDict d = d := pyDict_eq_self d hnodup
    have hlen : (msg.take s0).length = s0 := by
      rw [List.length_take]
      omega
    refine ⟨add_query_param url "cid".data (phone.filter Char.isDigit), ?_, rfl, ?_, ?_, ?_⟩
    · simp only [personalize_link_in_messageE, hf]
      rw [add_query_paramE_ok _ _ _ hok]
      rfl
    · rw [hq, hpyd, hddef]
      exact qlookup_pyDictInsert_self _ _ _
    · intro k hk
      rw [hq, hpyd, hddef]
      exact qlookup_pyDictInsert_other _ _ k hk _
    · intro hnet
      obtain ⟨hid1, hid2⟩ := hidem hnet
      have hff2 := find_first_url_of_splice msg url t2 s0 e0 sch t hsch hurl htne hts
        ht2ne ht2s hf
      rw [← hnu] at hff2
      simp only [personalize_link_in_messageE, hff2]
      have hok2 : netlocBracketOk (urlparse (add_query_param url "cid".data
          (phone.filter Char.isDigit))).netloc = true := by
        rw [hid2]
        exact hok
      rw [add_query_paramE_ok _ _ _ hok2]
      have htake : (msg.take s0 ++ add_query_param url "cid".data (phone.filter Char.isDigit)
          ++ msg.drop e0).take s0 = msg.take s0 := by
        rw [List.append_assoc, List.take_append_of_le_length (by rw [hlen])]
        simp [List.take_take]
      have hlen2 : (msg.take s0 ++ add_query_param url "cid".data
          (phone.filter Char.isDigit)).length
          = s0 + (add_query_param url "cid".data (phone.filter Char.isDigit)).length := by
        simp [List.length_append, hlen]
      have hdrop : (msg.take s0 ++ add_query_param url "cid".data (phone.filter Char.isDigit)
          ++ msg.drop e0).drop
            (s0 + (add_query_param url "cid".data (phone.filter Char.isDigit)).length)
          = msg.drop e0 := by
        rw [← hlen2, List.drop_left]
      simp only [Except.map]
      rw [hid1, htake, hdrop]

/-- Witness for C7: the raise branch on `see http://[x end` (unbalanced
bracket in the netloc) and the URL-bearing success branch on the concrete
message `go http://a/b?x=1 k` with identity `+15551234567`. -/
theorem C7_link_personalization_witness :
    personalize_link_in_messageE "see http://[x end".data "+99".data "cid".data
      = .error () ∧
    (∃ newUrl,
      personalize_link_in_messageE "go http://a/b?x=1 k".data "+15551234567".data "cid".data
        = .ok (("go http://a/b?x=1 k".data).take 3 ++ newUrl
            ++ ("go http://a/b?x=1 k".data).drop 17) ∧
      newUrl = add_query_param "http://a/b?x=1".data "cid".data
        ("+15551234567".data.filter Char.isDigit) ∧
      qlookup "cid".data (pyDict (parse_qsl (urlparse newUrl).query))
        = some ("+15551234567".data.filter Char.isDigit) ∧
      (∀ k, k ≠ "cid".data →
        qlookup k (pyDict (parse_qsl (urlparse newUrl).query))
          = qlookup k (pyDict (parse_qsl (urlparse "http://a/b?x=1".data).query))) ∧
      ((urlparse "http://a/b?x=1".data).netloc ≠ [] →
        personalize_link_in_messageE (("go http://a/b?x=1 k".data).take 3 ++ newUrl
            ++ ("go http://a/b?x=1 k".data).drop 17) "+15551234567".data "cid".data
          = .ok (("go http://a/b?x=1 k".data).take 3 ++ newUrl
              ++ ("go http://a/b?x=1 k".data).drop 17))) :=
  ⟨C7_link_personalization.2.1 "see http://[x end".data "+99".data "http://[x".data 4 13
      (by decide) (by decide),
    C7_link_personalization.2.2 "go http://a/b?x=1 k".data "+15551234567".data
      "http://a/b?x=1".data 3 17 (by decide) (by decide) (by decide)⟩

/-- Counterexample to C7's original unconditional claims.  First, a message
whose only URL has an unbalanced bracket makes the program raise
`ValueError: Invalid IPv6 URL` (aborting the run) instead of performing the
claimed rewrite.  Second, idempotence fails even where the rewrite succeeds:
on `see http://////x end` (empty netloc) the first render emits
`see http:////x?cid=99 end` — modern `urlunsplit` re-emits `//` and a second
parse absorbs path slashes — and rendering again shortens the URL further. -/
theorem C7_counterexample :
    personalize_link_in_messageE "see http://[x end".data "+99".data "cid".data
      = .error () ∧
    (urlparse "http://////x".data).netloc = [] ∧
    personalize_link_in_messageE "see http://////x end".data "+99".data "cid".data
      = .ok "see http:////x?cid=99 end".data ∧
    personalize_link_in_messageE "see http:////x?cid=99 end".data "+99".data "cid".data
      = .ok "see http://x?cid=99 end".data ∧
    ("see http://x?cid=99 end".data : Str) ≠ "see http:////x?cid=99 end".data :=
  ⟨rfl, rfl, rfl, rfl, by decide⟩
